import Mathlib

/-!
A chained hash table (`hash.c`, `hash.h`).

Shallow embedding of the table and its iterator.

* A bucket chain (`struct hash_node` linked through `next`) is a `List` of nodes; the
  empty list is the `NULL` chain.
* The bucket array is a list of chains; `bucket_count` is its length.
* A pointer into a chain (`iter->ptr`, the `p` of the lookup loops) is the part of the chain
  that starts at the node pointed to, `[]` standing for `NULL`.
* Keys are the non-`NULL` key references (`assert(key != NULL)`), seen only through the two
  caller-supplied functions; values are `void *` references, `NULL` included.
* Operations that mutate the table return the new table next to their C result.
-/

namespace HashTable

/-- Values stored in the table: `void *`. -/
abbrev void_ptr := Nat

/-- The null reference. -/
def NULL : void_ptr := 0

/-- Number of values of `size_t` (64 bit). -/
def SIZE_MOD : Nat := 18446744073709551616

/-- Largest `size_t`. -/
def SIZE_MAX : Nat := SIZE_MOD - 1

/-- The constant `HASH_BUCKET_COUNT_INIT`. -/
def HASH_BUCKET_COUNT_INIT : Nat := 1024

/-- The `struct hash_node`: `key`, `value` and the cached hash `hv`; the `next` link is the
tail of the list the node stands in. -/
structure hash_node (K : Type) where
  key : K
  value : void_ptr
  hv : Nat
deriving DecidableEq, Repr

/-- The `struct hash`. The bucket array and `bucket_count` are one list of chains. -/
structure hash (K : Type) where
  buckets : List (List (hash_node K))
  element_count : Nat
  hash_value : K → Nat
  hash_equal : K → K → Bool

/-- The field `bucket_count`: the length of the bucket array. -/
def hash.bucket_count {K : Type} (h : hash K) : Nat := h.buckets.length

/-- The `struct hash_pair`. -/
structure hash_pair (K : Type) where
  key : K
  value : void_ptr
deriving DecidableEq, Repr

/-- The `struct hash_iter`: the table, the bucket index `bi` and the node pointer `ptr`
(the chain from the current node on, `[]` for `NULL`). -/
structure hash_iter (K : Type) where
  hash : hash K
  bi : Nat
  ptr : List (hash_node K)

/-- The `element_count++` of `hash_put`. The counter counts live heap nodes, each of them
an allocation of its own, so it stays far below `SIZE_MAX` and the increment does not wrap. -/
def size_inc (n : Nat) : Nat := n + 1

/-- The `element_count--` of `hash_remove` and `hash_clear` on a `size_t`: zero wraps
around to `SIZE_MAX`. -/
def size_dec (n : Nat) : Nat := if n = 0 then SIZE_MAX else n - 1

/-- The chain `hash->buckets[hi]`. -/
def hash.bucket {K : Type} (h : hash K) (hi : Nat) : List (hash_node K) :=
  h.buckets.getD hi []

/-- The assignment `hash->buckets[hi] = chain`. -/
def hash.set_bucket {K : Type} (h : hash K) (hi : Nat) (chain : List (hash_node K)) : hash K :=
  { h with buckets := h.buckets.set hi chain }

/-- The test `(p->hv == hv) && (*hash->hash_equal)(p->key, key) == true`. -/
def node_matches {K : Type} (hash_equal : K → K → Bool) (key : K) (hv : Nat)
    (p : hash_node K) : Bool :=
  decide (p.hv = hv) && hash_equal p.key key

/-- The loop `while (p) { if (match) ...; prev = p; p = p->next; }` of `hash_get_node` and
`hash_remove`, up to the first matching node: the nodes passed over (`prev` is the last of
them, `NULL` when there is none), the node `p` found and the chain `p->next`. The result is
`none` when the chain ends without a match. -/
def chain_walk {K : Type} (hash_equal : K → K → Bool) (key : K) (hv : Nat) :
    List (hash_node K) → Option (List (hash_node K) × hash_node K × List (hash_node K))
  | [] => none
  | p :: next =>
    if node_matches hash_equal key hv p then some ([], p, next)
    else
      match chain_walk hash_equal key hv next with
      | none => none
      | some (passed, q, rest) => some (p :: passed, q, rest)

/-- The function `hash_create_bucket_count`; `none` is the failed `assert(bucket_count != 0)`.
The two allocations are taken to succeed; `calloc` gives `bucket_count` empty chains. -/
def hash_create_bucket_count {K : Type} (bucket_count : Nat) (hash_value : K → Nat)
    (hash_equal : K → K → Bool) : Option (hash K) :=
  if bucket_count = 0 then none
  else some
    { buckets := List.replicate bucket_count []
      element_count := 0
      hash_value := hash_value
      hash_equal := hash_equal }

/-- The function `hash_create`. -/
def hash_create {K : Type} (hash_value : K → Nat) (hash_equal : K → K → Bool) :
    Option (hash K) :=
  hash_create_bucket_count HASH_BUCKET_COUNT_INIT hash_value hash_equal

/-- The `for` loop of `hash_clear` over the bucket slots from the current index on, carrying
`element_count`: a non-empty slot loses its head node (`buckets[i] = node->next`) and the
counter is decremented; then the loop goes to the next slot. -/
def hash_clear_loop {K : Type} :
    List (List (hash_node K)) → Nat → List (List (hash_node K)) × Nat
  | [], count => ([], count)
  | [] :: slots, count =>
    let r := hash_clear_loop slots count
    ([] :: r.1, r.2)
  | (_ :: next) :: slots, count =>
    let r := hash_clear_loop slots (size_dec count)
    (next :: r.1, r.2)

/-- The table as the loop of `hash_clear` leaves it (what `hash_clear` returns when its
assertions are compiled out). -/
def hash_clear_body {K : Type} (h : hash K) : hash K :=
  let r := hash_clear_loop h.buckets h.element_count
  { h with buckets := r.1, element_count := r.2 }

/-- The function `hash_clear` with its assertions: `none` when `assert(bucket_count > 0)` or
the final `assert(hash->element_count == 0)` fails. -/
def hash_clear {K : Type} (h : hash K) : Option (hash K) :=
  if h.bucket_count = 0 then none
  else if (hash_clear_body h).element_count = 0 then some (hash_clear_body h)
  else none

/-- The function `hash_count`. -/
def hash_count {K : Type} (h : hash K) : Nat := h.element_count

/-- The function `hash_isempty`. -/
def hash_isempty {K : Type} (h : hash K) : Bool := decide (h.element_count = 0)

/-- The function `hash_get_node`. The result is the table (its chain `hi` reordered when
`mode` is set and the node found has a predecessor) and the node found: its position in
chain `hi` of that table together with its content, or `none` for `NULL`. The callers
pass `mode` 0 or 1, as `assert(mode == 0 || mode == 1)` asks. -/
def hash_get_node {K : Type} (h : hash K) (key : K) (hv : Nat) (hi : Nat) (mode : Nat) :
    hash K × Option (Nat × hash_node K) :=
  match chain_walk h.hash_equal key hv (h.bucket hi) with
  | none => (h, none)
  | some (passed, p, rest) =>
    if mode ≠ 0 ∧ passed.isEmpty = false then
      (h.set_bucket hi (p :: (passed ++ rest)), some (0, p))
    else (h, some (passed.length, p))

/-- The function `hash_get_fast`: the table after the call and the value returned. -/
def hash_get_fast {K : Type} (h : hash K) (key : K) : hash K × void_ptr :=
  let hv := h.hash_value key
  let hi := hv % h.bucket_count
  match hash_get_node h key hv hi 1 with
  | (h1, some found) => (h1, found.2.value)
  | (h1, none) => (h1, NULL)

/-- The function `hash_get` (the table is `const`). -/
def hash_get {K : Type} (h : hash K) (key : K) : void_ptr :=
  let hv := h.hash_value key
  let hi := hv % h.bucket_count
  match hash_get_node h key hv hi 0 with
  | (_, some found) => found.2.value
  | (_, none) => NULL

/-- The function `hash_put`: the table after the call and the value returned. On a hit the
node found gets the new value where it stands (`find->value = value`); on a miss a new node
becomes the head of chain `hi`. The allocation is taken to succeed. -/
def hash_put {K : Type} (h : hash K) (key : K) (value : void_ptr) : hash K × void_ptr :=
  let hv := h.hash_value key
  let hi := hv % h.bucket_count
  match hash_get_node h key hv hi 1 with
  | (h1, some found) =>
    (h1.set_bucket hi ((h1.bucket hi).set found.1 { found.2 with value := value }),
      found.2.value)
  | (h1, none) =>
    ({ h1.set_bucket hi ({ key := key, value := value, hv := hv } :: h1.bucket hi) with
        element_count := size_inc h1.element_count },
      NULL)

/-- The function `hash_remove`: the table after the call and the value returned. -/
def hash_remove {K : Type} (h : hash K) (key : K) : hash K × void_ptr :=
  let hv := h.hash_value key
  let hi := hv % h.bucket_count
  match chain_walk h.hash_equal key hv (h.bucket hi) with
  | some (passed, p, rest) =>
    ({ h.set_bucket hi (passed ++ rest) with element_count := size_dec h.element_count },
      p.value)
  | none => (h, NULL)

/-- The function `hash_make_iter` (the allocation is taken to succeed). -/
def hash_make_iter {K : Type} (h : hash K) : hash_iter K :=
  { hash := h, bi := 0, ptr := [] }

/-- The loop `while (iter->bi < iter->hash->bucket_count)` of `hash_iter_hasnext`, run over
the slots from index `bi` on: `ptr` takes the chain of the slot; a non-empty one ends the call
with `true`, an empty one gives `bi++`. Here `bi < bucket_count`, so this increment does not
wrap. -/
def hash_iter_scan {K : Type} :
    List (List (hash_node K)) → Nat → List (hash_node K) → Nat × List (hash_node K) × Bool
  | [], bi, ptr => (bi, ptr, false)
  | [] :: slots, bi, _ => hash_iter_scan slots (bi + 1) []
  | (p :: next) :: _, bi, _ => (bi, p :: next, true)

/-- The function `hash_iter_hasnext`: the iterator after the call and the value returned.
The `iter->bi++` before the loop is a `size_t` increment and wraps. -/
def hash_iter_hasnext {K : Type} (iter : hash_iter K) : hash_iter K × Bool :=
  match iter.ptr with
  | _ :: next :: rest => ({ iter with ptr := next :: rest }, true)
  | [p] =>
    let bi := (iter.bi + 1) % SIZE_MOD
    let r := hash_iter_scan (iter.hash.buckets.drop bi) bi [p]
    ({ iter with bi := r.1, ptr := r.2.1 }, r.2.2)
  | [] =>
    let r := hash_iter_scan (iter.hash.buckets.drop iter.bi) iter.bi []
    ({ iter with bi := r.1, ptr := r.2.1 }, r.2.2)

/-- The function `hash_iter_next`; `none` is the failed `assert(iter->ptr != NULL)`. -/
def hash_iter_next {K : Type} (iter : hash_iter K) : Option (hash_pair K) :=
  match iter.ptr with
  | [] => none
  | p :: _ => some { key := p.key, value := p.value }

/-- The function `hash_iter_rewind`. -/
def hash_iter_rewind {K : Type} (iter : hash_iter K) : hash_iter K :=
  { iter with bi := 0, ptr := [] }

/-- The traversal loop of a caller, `while (hash_iter_hasnext(iter)) pair = hash_iter_next(iter);`,
with at most `fuel` calls of `hash_iter_hasnext`: the pairs read, in order. The result is
`none` when the fuel runs out before `hash_iter_hasnext` returns false, or when an
assertion of `hash_iter_next` fails. -/
def hash_iter_traverse {K : Type} : Nat → hash_iter K → Option (List (hash_pair K))
  | 0, _ => none
  | fuel + 1, iter =>
    match hash_iter_hasnext iter with
    | (_, false) => some []
    | (iter1, true) =>
      match hash_iter_next iter1 with
      | none => none
      | some pair =>
        match hash_iter_traverse fuel iter1 with
        | none => none
        | some pairs => some (pair :: pairs)

/-- Total number of nodes over all bucket chains. -/
def node_count {K : Type} (h : hash K) : Nat := (h.buckets.map List.length).sum

/-- All nodes of the table, bucket after bucket, each chain from its head. -/
def all_nodes {K : Type} (h : hash K) : List (hash_node K) := h.buckets.flatten

/-- The pair `hash_iter_next` reports for a node. -/
def hash_node.pair {K : Type} (p : hash_node K) : hash_pair K :=
  { key := p.key, value := p.value }

/-- One call on a table. -/
inductive hash_call (K : Type) where
  | put (key : K) (value : void_ptr)
  | get (key : K)
  | get_fast (key : K)
  | remove (key : K)
  | clear
deriving DecidableEq, Repr

/-- The table after one call. For `clear` it is the table the loop of `hash_clear` leaves:
the table `hash_clear` returns whenever it returns. -/
def hash_call.run {K : Type} : hash_call K → hash K → hash K
  | .put key value, h => (hash_put h key value).1
  | .get _, h => h
  | .get_fast key, h => (hash_get_fast h key).1
  | .remove key, h => (hash_remove h key).1
  | .clear, h => hash_clear_body h

/-- The table after a sequence of calls, first call first. -/
def run_calls {K : Type} (calls : List (hash_call K)) (h : hash K) : hash K :=
  calls.foldl (fun t c => c.run t) h

/-- Two nodes that the lookup test cannot tell apart: same cached hash and keys equal under
`hash_equal`. -/
def node_clash {K : Type} (hash_equal : K → K → Bool) (a b : hash_node K) : Prop :=
  a.hv = b.hv ∧ hash_equal a.key b.key = true

/-- No chain of the table holds two nodes that clash. -/
def chains_distinct {K : Type} (h : hash K) : Prop :=
  ∀ c ∈ h.buckets, c.Pairwise (fun a b => ¬ node_clash h.hash_equal a b)

/-- The iterator after `n` calls of `hash_iter_hasnext` (calls of `hash_iter_next` in
between do not change it). -/
def hash_iter_advance {K : Type} : Nat → hash_iter K → hash_iter K
  | 0, iter => iter
  | n + 1, iter => hash_iter_advance n (hash_iter_hasnext iter).1

/-- A table of two buckets over natural-number keys, hashed by their value and compared by
equality: keys 4 and 2 chained in bucket 0, key 1 in bucket 1. -/
def sample_table : hash Nat :=
  { buckets := [[⟨4, 40, 4⟩, ⟨2, 20, 2⟩], [⟨1, 10, 1⟩]]
    element_count := 3
    hash_value := fun k => k
    hash_equal := fun a b => a == b }

/-- The empty table of two buckets over natural-number keys. -/
def sample_empty : hash Nat :=
  { buckets := [[], []]
    element_count := 0
    hash_value := fun k => k
    hash_equal := fun a b => a == b }

/-- The node that the lookup loop of `hash_get_node` and `hash_remove` finds for a key: the
first node in the chain of the key that passes the test, `none` when the loop ends without a
match. -/
def hash_lookup {K : Type} (h : hash K) (key : K) : Option (hash_node K) :=
  (chain_walk h.hash_equal key (h.hash_value key)
    (h.bucket (h.hash_value key % h.bucket_count))).map (fun r => r.2.1)

/-- Every node carries the hash of its key and stands in the bucket of that hash. -/
def nodes_placed {K : Type} (h : hash K) : Prop :=
  ∀ i, ∀ p ∈ h.bucket i, p.hv = h.hash_value p.key ∧ p.hv % h.bucket_count = i

/-- A table of one bucket that holds one node: key 1 with value 10. -/
def sample_single : hash Nat :=
  { buckets := [[⟨1, 10, 1⟩]]
    element_count := 1
    hash_value := fun k => k
    hash_equal := fun a b => a == b }

/-! Lemmas and theorems. -/

variable {K : Type}

theorem bucket_count_set_bucket (h : hash K) (hi : Nat) (c : List (hash_node K)) :
    (h.set_bucket hi c).bucket_count = h.bucket_count := by
  simp [hash.set_bucket, hash.bucket_count]

theorem bucket_set_bucket_self (h : hash K) (hi : Nat) (c : List (hash_node K))
    (hlt : hi < h.bucket_count) : (h.set_bucket hi c).bucket hi = c := by
  simp only [hash.bucket_count] at hlt
  simp [hash.set_bucket, hash.bucket, List.getD, hlt]

theorem lt_of_bucket_ne_nil (h : hash K) (hi : Nat) (hne : h.bucket hi ≠ []) :
    hi < h.bucket_count := by
  by_contra hge
  apply hne
  simp only [hash.bucket_count, not_lt] at hge
  simp [hash.bucket, List.getD, List.getElem?_eq_none hge]

theorem set_bucket_set_bucket (h : hash K) (hi : Nat) (c d : List (hash_node K)) :
    (h.set_bucket hi c).set_bucket hi d = h.set_bucket hi d := by
  simp [hash.set_bucket, List.set_set]

theorem chain_walk_none {eq : K → K → Bool} {key : K} {hv : Nat} :
    ∀ {chain : List (hash_node K)}, chain_walk eq key hv chain = none ↔
      ∀ p ∈ chain, node_matches eq key hv p = false
  | [] => by simp [chain_walk]
  | p :: next => by
    have ih := @chain_walk_none eq key hv next
    by_cases hm : node_matches eq key hv p = true
    · simp [chain_walk, hm]
    · simp only [Bool.not_eq_true] at hm
      cases hw : chain_walk eq key hv next with
      | none =>
        simp only [chain_walk, hm, hw, List.mem_cons, forall_eq_or_imp, true_and]
        simpa using ih.mp hw
      | some r =>
        obtain ⟨a, b, c⟩ := r
        have hne : ¬ ∀ q ∈ next, node_matches eq key hv q = false := by
          intro hall
          have hnone := ih.mpr hall
          rw [hw] at hnone
          cases hnone
        simp [chain_walk, hm, hw]
        by_contra hcon
        apply hne
        intro q hq
        by_contra hq2
        exact hcon ⟨q, hq, by simpa using hq2⟩

theorem chain_walk_some {eq : K → K → Bool} {key : K} {hv : Nat} :
    ∀ {chain passed : List (hash_node K)} {p : hash_node K} {rest : List (hash_node K)},
      chain_walk eq key hv chain = some (passed, p, rest) →
      chain = passed ++ p :: rest ∧ node_matches eq key hv p = true ∧
        ∀ q ∈ passed, node_matches eq key hv q = false
  | [], _, _, _, h => by simp [chain_walk] at h
  | a :: next, passed, p, rest, h => by
    by_cases hm : node_matches eq key hv a = true
    · simp [chain_walk, hm] at h
      obtain ⟨rfl, rfl, rfl⟩ := h
      simp [hm]
    · simp only [Bool.not_eq_true] at hm
      cases hw : chain_walk eq key hv next with
      | none => simp [chain_walk, hm, hw] at h
      | some r =>
        obtain ⟨a1, b1, c1⟩ := r
        simp [chain_walk, hm, hw] at h
        obtain ⟨rfl, rfl, rfl⟩ := h
        obtain ⟨h1, h2, h3⟩ := chain_walk_some hw
        refine ⟨by simp [h1], h2, ?_⟩
        intro q hq
        rcases List.mem_cons.mp hq with rfl | hq
        · exact hm
        · exact h3 q hq

theorem chain_walk_head {eq : K → K → Bool} {key : K} {hv : Nat} {p : hash_node K}
    (next : List (hash_node K)) (hm : node_matches eq key hv p = true) :
    chain_walk eq key hv (p :: next) = some ([], p, next) := by
  simp [chain_walk, hm]

theorem hash_put_miss (T : hash K) (key : K) (value : void_ptr)
    (hw : chain_walk T.hash_equal key (T.hash_value key)
      (T.bucket (T.hash_value key % T.bucket_count)) = none) :
    hash_put T key value =
      ({ T.set_bucket (T.hash_value key % T.bucket_count)
            ({ key := key, value := value, hv := T.hash_value key } ::
              T.bucket (T.hash_value key % T.bucket_count)) with
          element_count := T.element_count + 1 }, NULL) := by
  simp [hash_put, hash_get_node, hw, size_inc]

theorem hash_put_hit (T : hash K) (key : K) (value : void_ptr)
    {passed rest : List (hash_node K)} {p : hash_node K}
    (hw : chain_walk T.hash_equal key (T.hash_value key)
      (T.bucket (T.hash_value key % T.bucket_count)) = some (passed, p, rest)) :
    hash_put T key value =
      (T.set_bucket (T.hash_value key % T.bucket_count)
        ({ p with value := value } :: (passed ++ rest)), p.value) := by
  have hchain := (chain_walk_some hw).1
  have hlt : T.hash_value key % T.bucket_count < T.bucket_count :=
    lt_of_bucket_ne_nil T _ (by rw [hchain]; simp)
  cases passed with
  | nil =>
    simp only [List.nil_append] at hchain
    have hw1 := hw
    rw [hchain] at hw1
    simp [hash_put, hash_get_node, hw1, hchain, hash.set_bucket]
  | cons a passed =>
    simp [hash_put, hash_get_node, hw, bucket_set_bucket_self, hlt, set_bucket_set_bucket]

theorem hash_get_head (T : hash K) (key : K) {p : hash_node K} {next : List (hash_node K)}
    (hb : T.bucket (T.hash_value key % T.bucket_count) = p :: next)
    (hm : node_matches T.hash_equal key (T.hash_value key) p = true) :
    hash_get T key = p.value := by
  simp [hash_get, hash_get_node, hb, chain_walk_head next hm]

theorem hash_get_miss (T : hash K) (key : K)
    (hw : chain_walk T.hash_equal key (T.hash_value key)
      (T.bucket (T.hash_value key % T.bucket_count)) = none) :
    hash_get T key = NULL := by
  simp [hash_get, hash_get_node, hw]

/-- After `hash_put` the chain of the key starts with a node that matches the key and
holds the value put. -/
theorem hash_put_head (T : hash K) (hpos : 0 < T.bucket_count) (key : K) (value : void_ptr)
    (hrefl : T.hash_equal key key = true) :
    ∃ p next, (hash_put T key value).1.bucket (T.hash_value key % T.bucket_count) = p :: next ∧
      node_matches T.hash_equal key (T.hash_value key) p = true ∧ p.value = value := by
  have hlt : T.hash_value key % T.bucket_count < T.bucket_count := Nat.mod_lt _ hpos
  cases hw : chain_walk T.hash_equal key (T.hash_value key)
      (T.bucket (T.hash_value key % T.bucket_count)) with
  | none =>
    rw [hash_put_miss T key value hw]
    refine ⟨{ key := key, value := value, hv := T.hash_value key },
      T.bucket (T.hash_value key % T.bucket_count), ?_, ?_, rfl⟩
    · exact bucket_set_bucket_self T _ _ hlt
    · simp [node_matches, hrefl]
  | some r =>
    obtain ⟨passed, p, rest⟩ := r
    rw [hash_put_hit T key value hw]
    refine ⟨{ p with value := value }, passed ++ rest,
      bucket_set_bucket_self T _ _ hlt, ?_, rfl⟩
    have := (chain_walk_some hw).2.1
    simpa [node_matches] using this

theorem hash_put_fields (T : hash K) (key : K) (value : void_ptr) :
    (hash_put T key value).1.hash_value = T.hash_value ∧
    (hash_put T key value).1.hash_equal = T.hash_equal ∧
    (hash_put T key value).1.bucket_count = T.bucket_count := by
  cases hw : chain_walk T.hash_equal key (T.hash_value key)
      (T.bucket (T.hash_value key % T.bucket_count)) with
  | none =>
    rw [hash_put_miss T key value hw]
    simp [hash.set_bucket, hash.bucket_count]
  | some r =>
    obtain ⟨passed, p, rest⟩ := r
    rw [hash_put_hit T key value hw]
    simp [hash.set_bucket, hash.bucket_count]

theorem hash_get_put_self (T : hash K) (hpos : 0 < T.bucket_count) (key : K) (value : void_ptr)
    (hrefl : T.hash_equal key key = true) :
    hash_get (hash_put T key value).1 key = value := by
  obtain ⟨p, next, hb, hm, hv⟩ := hash_put_head T hpos key value hrefl
  obtain ⟨h1, h2, h3⟩ := hash_put_fields T key value
  have hget := @hash_get_head K (hash_put T key value).1 key p next
    (by rw [h1, h3]; exact hb) (by rw [h1, h2]; exact hm)
  rw [hget, hv]

theorem hash_put_again (T : hash K) (key : K) (value : void_ptr)
    {p : hash_node K} {next : List (hash_node K)}
    (hb : T.bucket (T.hash_value key % T.bucket_count) = p :: next)
    (hm : node_matches T.hash_equal key (T.hash_value key) p = true) :
    (hash_put T key value).2 = p.value ∧
      (hash_put T key value).1.element_count = T.element_count := by
  have hw := @chain_walk_head K T.hash_equal key (T.hash_value key) p next hm
  rw [← hb] at hw
  rw [hash_put_hit T key value hw]
  simp [hash.set_bucket]

theorem hash_remove_miss (T : hash K) (key : K)
    (hw : chain_walk T.hash_equal key (T.hash_value key)
      (T.bucket (T.hash_value key % T.bucket_count)) = none) :
    hash_remove T key = (T, NULL) := by
  simp [hash_remove, hw]

theorem hash_remove_hit (T : hash K) (key : K)
    {passed rest : List (hash_node K)} {p : hash_node K}
    (hw : chain_walk T.hash_equal key (T.hash_value key)
      (T.bucket (T.hash_value key % T.bucket_count)) = some (passed, p, rest)) :
    hash_remove T key =
      ({ T.set_bucket (T.hash_value key % T.bucket_count) (passed ++ rest) with
          element_count := size_dec T.element_count }, p.value) := by
  simp [hash_remove, hw]

theorem sum_length_set {α : Type} : ∀ (l : List (List α)) (i : Nat) (c : List α),
    i < l.length →
    ((l.set i c).map List.length).sum + (l.getD i []).length =
      (l.map List.length).sum + c.length
  | [], _, _, h => by simp at h
  | a :: l, 0, c, _ => by simp; omega
  | a :: l, i + 1, c, h => by
    have ih := sum_length_set l i c (by simpa using h)
    simp at ih ⊢
    omega

theorem set_getD_self {α : Type} : ∀ (l : List (List α)) (i : Nat), l.set i (l.getD i []) = l
  | [], _ => by simp
  | a :: l, 0 => by simp
  | a :: l, i + 1 => by
    have ih := set_getD_self l i
    simpa using ih

theorem set_bucket_bucket_self (T : hash K) (hi : Nat) : T.set_bucket hi (T.bucket hi) = T := by
  cases T with
  | mk buckets element_count hash_value hash_equal =>
    have hset := set_getD_self buckets hi
    simp only [hash.set_bucket, hash.bucket]
    rw [hset]

theorem node_count_set_bucket (T : hash K) (hi : Nat) (c : List (hash_node K))
    (hlt : hi < T.bucket_count) :
    node_count (T.set_bucket hi c) + (T.bucket hi).length = node_count T + c.length :=
  sum_length_set T.buckets hi c hlt

theorem length_le_node_count (T : hash K) (hi : Nat) : (T.bucket hi).length ≤ node_count T := by
  by_cases hlt : hi < T.bucket_count
  · have := node_count_set_bucket T hi [] hlt
    simp at this
    omega
  · have : T.bucket hi = [] := by
      by_contra hne
      exact hlt (lt_of_bucket_ne_nil T hi hne)
    simp [this]

theorem hash_clear_loop_length :
    ∀ (slots : List (List (hash_node K))) (n : Nat),
      (hash_clear_loop slots n).1.length = slots.length
  | [], _ => by simp [hash_clear_loop]
  | [] :: slots, n => by simp [hash_clear_loop, hash_clear_loop_length slots n]
  | (_ :: _) :: slots, n => by simp [hash_clear_loop, hash_clear_loop_length slots (size_dec n)]

theorem hash_clear_loop_count :
    ∀ (slots : List (List (hash_node K))) (extra : Nat),
      (hash_clear_loop slots ((slots.map List.length).sum + extra)).2 =
        ((hash_clear_loop slots ((slots.map List.length).sum + extra)).1.map List.length).sum
          + extra
  | [], _ => by simp [hash_clear_loop]
  | [] :: slots, extra => by
    have ih := hash_clear_loop_count slots extra
    simpa [hash_clear_loop] using ih
  | (a :: next) :: slots, extra => by
    have ih := hash_clear_loop_count slots (extra + next.length)
    have hdec : size_dec ((((a :: next) :: slots).map List.length).sum + extra)
        = (slots.map List.length).sum + (extra + next.length) := by
      simp [size_dec]
      omega
    simp only [hash_clear_loop, hdec]
    rw [ih]
    simp
    omega

theorem hash_get_fast_miss (T : hash K) (key : K)
    (hw : chain_walk T.hash_equal key (T.hash_value key)
      (T.bucket (T.hash_value key % T.bucket_count)) = none) :
    hash_get_fast T key = (T, NULL) := by
  simp [hash_get_fast, hash_get_node, hw]

theorem hash_get_fast_hit (T : hash K) (key : K)
    {passed rest : List (hash_node K)} {p : hash_node K}
    (hw : chain_walk T.hash_equal key (T.hash_value key)
      (T.bucket (T.hash_value key % T.bucket_count)) = some (passed, p, rest)) :
    hash_get_fast T key =
      (T.set_bucket (T.hash_value key % T.bucket_count) (p :: (passed ++ rest)), p.value) := by
  have hchain := (chain_walk_some hw).1
  cases passed with
  | nil =>
    simp only [List.nil_append] at hchain
    have hself := set_bucket_bucket_self T (T.hash_value key % T.bucket_count)
    rw [hchain] at hself
    simp [hash_get_fast, hash_get_node, hw, hself]
  | cons a passed =>
    simp [hash_get_fast, hash_get_node, hw]

theorem hash_create_bucket_count_some {n : Nat} {hash_value : K → Nat}
    {hash_equal : K → K → Bool} {T : hash K}
    (hc : hash_create_bucket_count n hash_value hash_equal = some T) :
    0 < n ∧ T = { buckets := List.replicate n [], element_count := 0,
                  hash_value := hash_value, hash_equal := hash_equal } := by
  unfold hash_create_bucket_count at hc
  split at hc
  · cases hc
  · refine ⟨by omega, ?_⟩
    simpa using hc.symm

theorem sum_length_replicate_nil {α : Type} (n : Nat) :
    ((List.replicate n ([] : List α)).map List.length).sum = 0 := by
  induction n with
  | zero => simp
  | succ n ih => simp [List.replicate_succ]

/-- One call keeps the bucket count and the agreement of `element_count` with the number
of nodes. -/
theorem run_keeps_count (c : hash_call K) (T : hash K) (hpos : 0 < T.bucket_count)
    (hcount : T.element_count = node_count T) :
    (c.run T).bucket_count = T.bucket_count ∧
      (c.run T).element_count = node_count (c.run T) := by
  cases c with
  | get key => exact ⟨rfl, hcount⟩
  | clear =>
    refine ⟨?_, ?_⟩
    · simp [hash_call.run, hash_clear_body, hash.bucket_count, hash_clear_loop_length]
    · have h := hash_clear_loop_count T.buckets 0
      simp only [Nat.add_zero] at h
      simp only [hash_call.run, hash_clear_body, node_count, hcount]
      exact h
  | put key value =>
    have hlt : T.hash_value key % T.bucket_count < T.bucket_count := Nat.mod_lt _ hpos
    simp only [hash_call.run]
    cases hw : chain_walk T.hash_equal key (T.hash_value key)
        (T.bucket (T.hash_value key % T.bucket_count)) with
    | none =>
      rw [hash_put_miss T key value hw]
      refine ⟨bucket_count_set_bucket T _ _, ?_⟩
      have h := node_count_set_bucket T (T.hash_value key % T.bucket_count)
        ({ key := key, value := value, hv := T.hash_value key } ::
          T.bucket (T.hash_value key % T.bucket_count)) hlt
      simp only [List.length_cons] at h
      show T.element_count + 1 = node_count (T.set_bucket _ _)
      omega
    | some r =>
      obtain ⟨passed, p, rest⟩ := r
      rw [hash_put_hit T key value hw]
      refine ⟨bucket_count_set_bucket T _ _, ?_⟩
      have h := node_count_set_bucket T (T.hash_value key % T.bucket_count)
        ({ p with value := value } :: (passed ++ rest)) hlt
      rw [(chain_walk_some hw).1] at h
      simp only [List.length_cons, List.length_append] at h
      show T.element_count = node_count (T.set_bucket _ _)
      omega
  | get_fast key =>
    have hlt : T.hash_value key % T.bucket_count < T.bucket_count := Nat.mod_lt _ hpos
    simp only [hash_call.run]
    cases hw : chain_walk T.hash_equal key (T.hash_value key)
        (T.bucket (T.hash_value key % T.bucket_count)) with
    | none =>
      rw [hash_get_fast_miss T key hw]
      exact ⟨rfl, hcount⟩
    | some r =>
      obtain ⟨passed, p, rest⟩ := r
      rw [hash_get_fast_hit T key hw]
      refine ⟨bucket_count_set_bucket T _ _, ?_⟩
      have h := node_count_set_bucket T (T.hash_value key % T.bucket_count)
        (p :: (passed ++ rest)) hlt
      rw [(chain_walk_some hw).1] at h
      simp only [List.length_cons, List.length_append] at h
      show T.element_count = node_count (T.set_bucket _ _)
      omega
  | remove key =>
    have hlt : T.hash_value key % T.bucket_count < T.bucket_count := Nat.mod_lt _ hpos
    simp only [hash_call.run]
    cases hw : chain_walk T.hash_equal key (T.hash_value key)
        (T.bucket (T.hash_value key % T.bucket_count)) with
    | none =>
      rw [hash_remove_miss T key hw]
      exact ⟨rfl, hcount⟩
    | some r =>
      obtain ⟨passed, p, rest⟩ := r
      rw [hash_remove_hit T key hw]
      refine ⟨bucket_count_set_bucket T _ _, ?_⟩
      have h := node_count_set_bucket T (T.hash_value key % T.bucket_count)
        (passed ++ rest) hlt
      rw [(chain_walk_some hw).1] at h
      simp only [List.length_cons, List.length_append] at h
      show size_dec T.element_count = node_count (T.set_bucket _ _)
      have hne : T.element_count ≠ 0 := by omega
      simp only [size_dec, hne, if_false]
      omega

theorem run_calls_keeps_count : ∀ (calls : List (hash_call K)) (T : hash K),
    0 < T.bucket_count → T.element_count = node_count T →
    (run_calls calls T).bucket_count = T.bucket_count ∧
      (run_calls calls T).element_count = node_count (run_calls calls T)
  | [], _, _, hcount => ⟨rfl, hcount⟩
  | c :: calls, T, hpos, hcount => by
    obtain ⟨h1, h2⟩ := run_keeps_count c T hpos hcount
    obtain ⟨h3, h4⟩ := run_calls_keeps_count calls (c.run T) (by omega) h2
    exact ⟨by simpa [run_calls, h1] using h3, by simpa [run_calls] using h4⟩

theorem created_count {n : Nat} {hash_value : K → Nat} {hash_equal : K → K → Bool}
    {T : hash K} (hc : hash_create_bucket_count n hash_value hash_equal = some T) :
    0 < T.bucket_count ∧ T.element_count = node_count T := by
  obtain ⟨hn, rfl⟩ := hash_create_bucket_count_some hc
  exact ⟨by simpa [hash.bucket_count] using hn,
    by simp [node_count, sum_length_replicate_nil]⟩

theorem chains_distinct_update (T T1 : hash K) (hi : Nat) (c : List (hash_node K))
    (hd : chains_distinct T) (hb : T1.buckets = T.buckets.set hi c)
    (he : T1.hash_equal = T.hash_equal)
    (hc : c.Pairwise (fun a b => ¬ node_clash T.hash_equal a b)) :
    chains_distinct T1 := by
  intro d hmem
  rw [hb] at hmem
  rw [he]
  rcases List.mem_or_eq_of_mem_set hmem with h | h
  · exact hd d h
  · rw [h]; exact hc

theorem bucket_pairwise (T : hash K) (hd : chains_distinct T) (hi : Nat) :
    (T.bucket hi).Pairwise (fun a b => ¬ node_clash T.hash_equal a b) := by
  by_cases hlt : hi < T.buckets.length
  · apply hd
    simp [hash.bucket, List.getD, List.getElem?_eq_getElem hlt]
  · have : T.bucket hi = [] := by
      simp only [not_lt] at hlt
      simp [hash.bucket, List.getD, List.getElem?_eq_none hlt]
    rw [this]
    exact List.Pairwise.nil

theorem not_clash_symm {eq : K → K → Bool} (hsymm : ∀ a b, eq a b = true → eq b a = true)
    {x y : hash_node K} (h : ¬ node_clash eq x y) : ¬ node_clash eq y x := by
  intro hc
  exact h ⟨hc.1.symm, hsymm _ _ hc.2⟩

theorem pairwise_move_front {eq : K → K → Bool}
    (hsymm : ∀ a b, eq a b = true → eq b a = true)
    {passed rest : List (hash_node K)} {p p1 : hash_node K}
    (hk : p1.key = p.key) (hh : p1.hv = p.hv)
    (hc : (passed ++ p :: rest).Pairwise (fun a b => ¬ node_clash eq a b)) :
    (p1 :: (passed ++ rest)).Pairwise (fun a b => ¬ node_clash eq a b) := by
  have hperm : (passed ++ p :: rest).Perm (p :: (passed ++ rest)) := List.perm_middle
  have h2 := (List.Perm.pairwise_iff (fun {x y} h => not_clash_symm hsymm h) hperm).mp hc
  rw [List.pairwise_cons] at h2 ⊢
  refine ⟨?_, h2.2⟩
  intro b hb hclash
  apply h2.1 b hb
  unfold node_clash at hclash ⊢
  rw [hk, hh] at hclash
  exact hclash

theorem hash_clear_loop_sublist :
    ∀ (slots : List (List (hash_node K))) (n : Nat) (d : List (hash_node K)),
      d ∈ (hash_clear_loop slots n).1 → ∃ c ∈ slots, d.Sublist c
  | [], _, d, h => by simp [hash_clear_loop] at h
  | [] :: slots, n, d, h => by
    simp only [hash_clear_loop, List.mem_cons] at h
    rcases h with h | h
    · exact ⟨[], by simp, by rw [h]⟩
    · obtain ⟨c, hc, hs⟩ := hash_clear_loop_sublist slots n d h
      exact ⟨c, by simp [hc], hs⟩
  | (a :: next) :: slots, n, d, h => by
    simp only [hash_clear_loop, List.mem_cons] at h
    rcases h with h | h
    · exact ⟨a :: next, by simp, by rw [h]; exact List.sublist_cons_self a next⟩
    · obtain ⟨c, hc, hs⟩ := hash_clear_loop_sublist slots (size_dec n) d h
      exact ⟨c, by simp [hc], hs⟩

/-- One call keeps the two caller functions and, when `hash_equal` is symmetric, keeps the
chains free of clashing nodes. -/
theorem run_keeps_distinct (c : hash_call K) (T : hash K)
    (hsymm : ∀ a b, T.hash_equal a b = true → T.hash_equal b a = true)
    (hd : chains_distinct T) :
    (c.run T).hash_equal = T.hash_equal ∧ (c.run T).hash_value = T.hash_value ∧
      chains_distinct (c.run T) := by
  cases c with
  | get key => exact ⟨rfl, rfl, hd⟩
  | clear =>
    refine ⟨rfl, rfl, ?_⟩
    intro d hmem
    obtain ⟨c, hc, hs⟩ := hash_clear_loop_sublist T.buckets T.element_count d hmem
    exact List.Pairwise.sublist hs (hd c hc)
  | put key value =>
    simp only [hash_call.run]
    have hpw := bucket_pairwise T hd (T.hash_value key % T.bucket_count)
    cases hw : chain_walk T.hash_equal key (T.hash_value key)
        (T.bucket (T.hash_value key % T.bucket_count)) with
    | none =>
      rw [hash_put_miss T key value hw]
      refine ⟨rfl, rfl, chains_distinct_update T _ _ _ hd rfl rfl ?_⟩
      rw [List.pairwise_cons]
      refine ⟨?_, hpw⟩
      intro b hb hclash
      have hm := (chain_walk_none.mp hw) b hb
      have h1 : b.hv = T.hash_value key := hclash.1.symm
      have h2 : T.hash_equal b.key key = true := hsymm _ _ hclash.2
      simp [node_matches, h1, h2] at hm
    | some r =>
      obtain ⟨passed, p, rest⟩ := r
      rw [hash_put_hit T key value hw]
      refine ⟨rfl, rfl, chains_distinct_update T _ _ _ hd rfl rfl ?_⟩
      rw [(chain_walk_some hw).1] at hpw
      exact @pairwise_move_front K T.hash_equal hsymm passed rest p
        { p with value := value } rfl rfl hpw
  | get_fast key =>
    simp only [hash_call.run]
    have hpw := bucket_pairwise T hd (T.hash_value key % T.bucket_count)
    cases hw : chain_walk T.hash_equal key (T.hash_value key)
        (T.bucket (T.hash_value key % T.bucket_count)) with
    | none =>
      rw [hash_get_fast_miss T key hw]
      exact ⟨rfl, rfl, hd⟩
    | some r =>
      obtain ⟨passed, p, rest⟩ := r
      rw [hash_get_fast_hit T key hw]
      refine ⟨rfl, rfl, chains_distinct_update T _ _ _ hd rfl rfl ?_⟩
      rw [(chain_walk_some hw).1] at hpw
      exact pairwise_move_front hsymm rfl rfl hpw
  | remove key =>
    simp only [hash_call.run]
    have hpw := bucket_pairwise T hd (T.hash_value key % T.bucket_count)
    cases hw : chain_walk T.hash_equal key (T.hash_value key)
        (T.bucket (T.hash_value key % T.bucket_count)) with
    | none =>
      rw [hash_remove_miss T key hw]
      exact ⟨rfl, rfl, hd⟩
    | some r =>
      obtain ⟨passed, p, rest⟩ := r
      rw [hash_remove_hit T key hw]
      refine ⟨rfl, rfl, chains_distinct_update T _ _ _ hd rfl rfl ?_⟩
      rw [(chain_walk_some hw).1] at hpw
      exact List.Pairwise.sublist
        (List.Sublist.append (List.Sublist.refl passed) (List.sublist_cons_self p rest)) hpw

theorem run_calls_keeps_distinct : ∀ (calls : List (hash_call K)) (T : hash K),
    (∀ a b, T.hash_equal a b = true → T.hash_equal b a = true) → chains_distinct T →
    (run_calls calls T).hash_equal = T.hash_equal ∧
      (run_calls calls T).hash_value = T.hash_value ∧ chains_distinct (run_calls calls T)
  | [], _, _, hd => ⟨rfl, rfl, hd⟩
  | c :: calls, T, hsymm, hd => by
    obtain ⟨h1, h2, h3⟩ := run_keeps_distinct c T hsymm hd
    obtain ⟨h4, h5, h6⟩ := run_calls_keeps_distinct calls (c.run T) (by rw [h1]; exact hsymm) h3
    refine ⟨?_, ?_, ?_⟩
    · simpa [run_calls, h1] using h4
    · simpa [run_calls, h2] using h5
    · simpa [run_calls] using h6

theorem created_distinct {n : Nat} {hash_value : K → Nat} {hash_equal : K → K → Bool}
    {T : hash K} (hc : hash_create_bucket_count n hash_value hash_equal = some T) :
    T.hash_equal = hash_equal ∧ T.hash_value = hash_value ∧ chains_distinct T := by
  obtain ⟨_, rfl⟩ := hash_create_bucket_count_some hc
  refine ⟨rfl, rfl, ?_⟩
  intro c hmem
  have : c = [] := List.eq_of_mem_replicate hmem
  rw [this]
  exact List.Pairwise.nil

theorem mem_all_nodes_of_mem_bucket (T : hash K) (hi : Nat) (p : hash_node K)
    (hp : p ∈ T.bucket hi) : p ∈ all_nodes T := by
  have hne : T.bucket hi ≠ [] := by
    intro h
    rw [h] at hp
    cases hp
  have hlt : hi < T.buckets.length := lt_of_bucket_ne_nil T hi hne
  simp only [all_nodes, List.mem_flatten]
  refine ⟨T.bucket hi, ?_, hp⟩
  simp [hash.bucket, List.getD, List.getElem?_eq_getElem hlt]

theorem mem_flatten_set {α : Type} (l : List (List α)) (i : Nat) (c : List α) (x : α)
    (hx : x ∈ (l.set i c).flatten) : x ∈ c ∨ x ∈ l.flatten := by
  simp only [List.mem_flatten] at hx ⊢
  obtain ⟨d, hd, hxd⟩ := hx
  rcases List.mem_or_eq_of_mem_set hd with h | h
  · exact Or.inr ⟨d, h, hxd⟩
  · exact Or.inl (h ▸ hxd)

/-- Puts of keys that no stored key and no earlier key of the list equals: each one adds
one to `element_count`. -/
theorem run_puts_count : ∀ (kvs : List (K × void_ptr)) (T : hash K),
    (∀ p ∈ all_nodes T, ∀ kv ∈ kvs, T.hash_equal p.key kv.1 = false) →
    kvs.Pairwise (fun a b => T.hash_equal a.1 b.1 = false) →
    (run_calls (kvs.map (fun kv => hash_call.put kv.1 kv.2)) T).element_count =
      T.element_count + kvs.length
  | [], _, _, _ => by simp [run_calls]
  | kv :: kvs, T, hfresh, hpair => by
    rw [List.pairwise_cons] at hpair
    have hw : chain_walk T.hash_equal kv.1 (T.hash_value kv.1)
        (T.bucket (T.hash_value kv.1 % T.bucket_count)) = none := by
      rw [chain_walk_none]
      intro p hp
      have := hfresh p (mem_all_nodes_of_mem_bucket T _ p hp) kv (by simp)
      simp [node_matches, this]
    have hput := hash_put_miss T kv.1 kv.2 hw
    have ih := run_puts_count kvs (hash_put T kv.1 kv.2).1 (by
      rw [hput]
      intro p hp kv1 hkv1
      rcases mem_flatten_set T.buckets _ _ p hp with h | h
      · rcases List.mem_cons.mp h with h | h
        · rw [h]; exact hpair.1 kv1 hkv1
        · exact hfresh p (mem_all_nodes_of_mem_bucket T _ p h) kv1 (by simp [hkv1])
      · exact hfresh p h kv1 (by simp [hkv1])) (by
      rw [hput]
      exact hpair.2)
    simp only [List.map_cons, run_calls, List.foldl_cons, hash_call.run] at ih ⊢
    rw [ih, hput]
    simp only [List.length_cons]
    omega

/-- What the scan loop of `hash_iter_hasnext` does: either all slots are empty and it
reports false, or it stops at the first non-empty slot, `k` slots further. -/
theorem hash_iter_scan_spec : ∀ (slots : List (List (hash_node K))) (bi : Nat)
    (ptr : List (hash_node K)),
    (slots.flatten = [] ∧ (hash_iter_scan slots bi ptr).2.2 = false) ∨
    ∃ k q next later, slots.drop k = (q :: next) :: later ∧
      slots.flatten = (q :: next) ++ later.flatten ∧
      hash_iter_scan slots bi ptr = (bi + k, q :: next, true)
  | [], bi, ptr => Or.inl (by simp [hash_iter_scan])
  | [] :: slots, bi, ptr => by
    rcases hash_iter_scan_spec slots (bi + 1) [] with ⟨h1, h2⟩ | ⟨k, q, next, later, h1, h2, h3⟩
    · exact Or.inl ⟨by simpa using h1, by simpa [hash_iter_scan] using h2⟩
    · refine Or.inr ⟨k + 1, q, next, later, by simpa using h1, by simpa using h2, ?_⟩
      simp only [hash_iter_scan, h3]
      congr 1
      omega
  | (q :: next) :: slots, bi, ptr =>
    Or.inr ⟨0, q, next, slots, by simp, by simp, by simp [hash_iter_scan]⟩

theorem drop_cons_length {α : Type} {l : List α} {n : Nat} {a : α} {t : List α}
    (h : l.drop n = a :: t) : n < l.length ∧ l.drop (n + 1) = t := by
  constructor
  · by_contra hge
    simp only [not_lt] at hge
    rw [List.drop_of_length_le hge] at h
    cases h
  · have : l.drop (n + 1) = (l.drop n).drop 1 := by
      rw [List.drop_drop]
    rw [this, h]
    rfl

/-- Traversal from a node already reported: the rest of its chain, then the later buckets. -/
theorem traverse_in_chain (T : hash K) (hsize : T.bucket_count < SIZE_MOD) :
    ∀ (fuel bi : Nat) (p : hash_node K) (rest : List (hash_node K)),
      bi < T.bucket_count →
      rest.length + (T.buckets.drop (bi + 1)).flatten.length < fuel →
      hash_iter_traverse fuel { hash := T, bi := bi, ptr := p :: rest } =
        some ((rest ++ (T.buckets.drop (bi + 1)).flatten).map hash_node.pair)
  | 0, _, _, _, _, hf => by omega
  | fuel + 1, bi, p, [], hbi, hf => by
    have hmod : (bi + 1) % SIZE_MOD = bi + 1 := Nat.mod_eq_of_lt (by omega)
    rcases hash_iter_scan_spec (T.buckets.drop (bi + 1)) (bi + 1) [p] with
      ⟨h1, h2⟩ | ⟨k, q, next, later, h1, h2, h3⟩
    · simp only [hash_iter_traverse, hash_iter_hasnext, hmod, h2, h1]
      rfl
    · rw [List.drop_drop] at h1
      obtain ⟨hlt, hdrop⟩ := drop_cons_length h1
      have hlt2 : bi + 1 + k < T.bucket_count := by
        simp only [hash.bucket_count]
        omega
      have hd2 : T.buckets.drop (bi + 1 + k + 1) = later := by
        rw [← hdrop]
      have ih := traverse_in_chain T hsize fuel (bi + 1 + k) q next hlt2 (by
        rw [hd2]
        rw [h2] at hf
        simp only [List.length_nil, List.length_append, List.length_cons] at hf
        omega)
      simp only [hash_iter_traverse, hash_iter_hasnext, hmod, h3, hash_iter_next, ih, h2, hd2]
      rfl
  | fuel + 1, bi, p, q :: rest, hbi, hf => by
    have ih := traverse_in_chain T hsize fuel bi q rest hbi (by
      simp only [List.length_cons] at hf
      omega)
    simp only [hash_iter_traverse, hash_iter_hasnext, hash_iter_next, ih]
    rfl

/-- A full traversal from a fresh iterator reads every node once, bucket after bucket. -/
theorem traverse_fresh (T : hash K) (hsize : T.bucket_count < SIZE_MOD) (fuel : Nat)
    (hfuel : node_count T < fuel) :
    hash_iter_traverse fuel (hash_make_iter T) = some ((all_nodes T).map hash_node.pair) := by
  have hlen : (all_nodes T).length = node_count T := by
    simp [all_nodes, node_count, List.length_flatten]
  cases fuel with
  | zero => omega
  | succ fuel =>
    rcases hash_iter_scan_spec (T.buckets.drop 0) 0 [] with
      ⟨h1, h2⟩ | ⟨k, q, next, later, h1, h2, h3⟩
    · simp only [List.drop_zero] at h1
      simp only [hash_iter_traverse, hash_make_iter, hash_iter_hasnext, h2, all_nodes, h1]
      rfl
    · rw [List.drop_drop] at h1
      simp only [List.drop_zero] at h2
      obtain ⟨hlt, hdrop⟩ := drop_cons_length h1
      have hd2 : T.buckets.drop (0 + k + 1) = later := by
        rw [← hdrop]
      have hall : all_nodes T = (q :: next) ++ later.flatten := h2
      have ih := traverse_in_chain T hsize fuel (0 + k) q next (by
        simp only [hash.bucket_count]; omega) (by
        rw [hd2]
        rw [← hlen, hall] at hfuel
        simp only [List.length_append, List.length_cons] at hfuel
        omega)
      simp only [hash_iter_traverse, hash_make_iter, hash_iter_hasnext, h3, hash_iter_next, ih,
        hd2, hall]
      rfl

theorem hash_iter_hasnext_hash (iter : hash_iter K) :
    (hash_iter_hasnext iter).1.hash = iter.hash := by
  unfold hash_iter_hasnext
  split <;> rfl

theorem hash_iter_advance_hash : ∀ (n : Nat) (iter : hash_iter K),
    (hash_iter_advance n iter).hash = iter.hash
  | 0, _ => rfl
  | n + 1, iter => by
    rw [hash_iter_advance, hash_iter_advance_hash n, hash_iter_hasnext_hash]

theorem hash_iter_rewind_advance (T : hash K) (n : Nat) :
    hash_iter_rewind (hash_iter_advance n (hash_make_iter T)) = hash_make_iter T := by
  have h := hash_iter_advance_hash n (hash_make_iter T)
  simp only [hash_iter_rewind, hash_make_iter] at h ⊢
  rw [h]

theorem hasnext_fresh_created {n : Nat} {hash_value : K → Nat} {hash_equal : K → K → Bool}
    {T : hash K} (hc : hash_create_bucket_count n hash_value hash_equal = some T) :
    (hash_iter_hasnext (hash_make_iter T)).2 = false := by
  obtain ⟨_, rfl⟩ := hash_create_bucket_count_some hc
  rcases hash_iter_scan_spec (List.replicate n ([] : List (hash_node K))) 0 [] with
    ⟨_, h2⟩ | ⟨k, q, next, later, _, h2, _⟩
  · simpa [hash_iter_hasnext, hash_make_iter] using h2
  · have hnil : (List.replicate n ([] : List (hash_node K))).flatten = [] := by
      simp [List.flatten_eq_nil_iff]
    rw [hnil] at h2
    cases h2

/-- Claim C1 (round trip): on a table with `bucket_count > 0` and `hash_equal` reflexive on
the key, `hash_get` after `hash_put` of the key returns the value put. -/
theorem put_then_get (T : hash K) (hpos : 0 < T.bucket_count) (key : K) (value : void_ptr)
    (hrefl : T.hash_equal key key = true) :
    hash_get (hash_put T key value).1 key = value :=
  hash_get_put_self T hpos key value hrefl

/-- Witness of C1: key 2 of the sample table gets the value 99. -/
theorem put_then_get_witness :
    0 < sample_table.bucket_count ∧ hash_get (hash_put sample_table 2 99).1 2 = 99 :=
  ⟨by decide, put_then_get sample_table (by decide) 2 99 (by decide)⟩

/-- Claim C2 (replacement): after `hash_put` of a key with `v1`, a second `hash_put` of the
key with `v2` returns `v1`, a following `hash_get` returns `v2`, and `element_count` is the
same before and after the second put (`bucket_count > 0`, `hash_equal` reflexive on the
key). -/
theorem put_replaces_value (T : hash K) (hpos : 0 < T.bucket_count) (key : K)
    (v1 v2 : void_ptr) (hrefl : T.hash_equal key key = true) :
    (hash_put (hash_put T key v1).1 key v2).2 = v1 ∧
      hash_get (hash_put (hash_put T key v1).1 key v2).1 key = v2 ∧
      hash_count (hash_put (hash_put T key v1).1 key v2).1 =
        hash_count (hash_put T key v1).1 := by
  obtain ⟨p, next, hb, hm, hv⟩ := hash_put_head T hpos key v1 hrefl
  obtain ⟨h1, h2, h3⟩ := hash_put_fields T key v1
  have hagain := @hash_put_again K (hash_put T key v1).1 key v2 p next
    (by rw [h1, h3]; exact hb) (by rw [h1, h2]; exact hm)
  refine ⟨by rw [hagain.1, hv], ?_, hagain.2⟩
  exact hash_get_put_self (hash_put T key v1).1 (by rw [h3]; exact hpos) key v2
    (by rw [h2]; exact hrefl)

/-- Witness of C2: key 7, new to the sample table, is put with 5 and then with 6. -/
theorem put_replaces_value_witness :
    (hash_put (hash_put sample_table 7 5).1 7 6).2 = 5 ∧
      hash_get (hash_put (hash_put sample_table 7 5).1 7 6).1 7 = 6 ∧
      hash_count (hash_put (hash_put sample_table 7 5).1 7 6).1 =
        hash_count (hash_put sample_table 7 5).1 :=
  put_replaces_value sample_table (by decide) 7 5 6 (by decide)

/-- Claim C3 (removal): on a table reached from a freshly created one by calls of the table
operations, with `hash_equal` an equivalence relation, `hash_remove` of a key right after
`hash_put` of that key returns the value put, a following `hash_get` returns `NULL`
(not found), and `element_count` goes down by exactly one across the remove. -/
theorem remove_after_put (n : Nat) (hash_value : K → Nat) (hash_equal : K → K → Bool)
    (T0 : hash K) (calls : List (hash_call K)) (key : K) (value : void_ptr)
    (hcreate : hash_create_bucket_count n hash_value hash_equal = some T0)
    (hrefl : ∀ a, hash_equal a a = true)
    (hsymm : ∀ a b, hash_equal a b = true → hash_equal b a = true)
    (htrans : ∀ a b c, hash_equal a b = true → hash_equal b c = true →
      hash_equal a c = true) :
    (hash_remove (hash_put (run_calls calls T0) key value).1 key).2 = value ∧
      hash_get (hash_remove (hash_put (run_calls calls T0) key value).1 key).1 key = NULL ∧
      hash_count (hash_remove (hash_put (run_calls calls T0) key value).1 key).1 + 1 =
        hash_count (hash_put (run_calls calls T0) key value).1 := by
  obtain ⟨hpos0, hcount0⟩ := created_count hcreate
  obtain ⟨heq0, _, hd0⟩ := created_distinct hcreate
  -- the table T before the put, and T1 after it, as results of call sequences
  have hT1 : (hash_put (run_calls calls T0) key value).1 =
      run_calls (calls ++ [hash_call.put key value]) T0 := by
    simp [run_calls, hash_call.run]
  obtain ⟨hbcT, hcountT⟩ := run_calls_keeps_count calls T0 hpos0 hcount0
  obtain ⟨heqT, _, _⟩ := run_calls_keeps_distinct calls T0 (by rw [heq0]; exact hsymm) hd0
  obtain ⟨hbc1, hcount1⟩ :=
    run_calls_keeps_count (calls ++ [hash_call.put key value]) T0 hpos0 hcount0
  obtain ⟨heq1, _, hd1⟩ := run_calls_keeps_distinct (calls ++ [hash_call.put key value]) T0
    (by rw [heq0]; exact hsymm) hd0
  rw [← hT1] at hbc1 hcount1 heq1 hd1
  have hposT : 0 < (run_calls calls T0).bucket_count := by omega
  have heqT2 : (run_calls calls T0).hash_equal = hash_equal := by rw [heqT, heq0]
  obtain ⟨p, next, hb, hm, hv⟩ := hash_put_head (run_calls calls T0) hposT key value
    (by rw [heqT2]; exact hrefl key)
  obtain ⟨h1, h2, h3⟩ := hash_put_fields (run_calls calls T0) key value
  generalize hash_put (run_calls calls T0) key value = r at *
  generalize run_calls calls T0 = T at *
  rw [← h1, ← h3] at hb
  rw [← h1, ← h2] at hm
  have hw := @chain_walk_head K r.1.hash_equal key (r.1.hash_value key) p next hm
  rw [← hb] at hw
  have hrem := hash_remove_hit r.1 key hw
  have hpw := bucket_pairwise r.1 hd1 (r.1.hash_value key % r.1.bucket_count)
  rw [hb, List.pairwise_cons] at hpw
  have hlt : r.1.hash_value key % r.1.bucket_count < r.1.bucket_count :=
    Nat.mod_lt _ (by omega)
  have hlen := length_le_node_count r.1 (r.1.hash_value key % r.1.bucket_count)
  rw [hb] at hlen
  simp only [List.length_cons] at hlen
  have hne : r.1.element_count ≠ 0 := by omega
  rw [hrem]
  refine ⟨hv, ?_, ?_⟩
  · apply hash_get_miss
    show chain_walk r.1.hash_equal key (r.1.hash_value key)
      ((r.1.set_bucket _ ([] ++ next)).bucket
        (r.1.hash_value key % (r.1.set_bucket _ ([] ++ next)).bucket_count)) = none
    rw [bucket_count_set_bucket, bucket_set_bucket_self _ _ _ hlt, chain_walk_none]
    intro q hq
    by_contra hmq
    simp only [Bool.not_eq_false] at hmq
    apply hpw.1 q hq
    simp only [node_matches, Bool.and_eq_true, decide_eq_true_eq] at hm hmq
    refine ⟨by rw [hm.1, hmq.1], ?_⟩
    rw [heq1, heq0] at hm hmq ⊢
    exact htrans _ _ _ hm.2 (hsymm _ _ hmq.2)
  · show size_dec r.1.element_count + 1 = r.1.element_count
    simp only [size_dec, hne, if_false]
    omega

/-- Witness of C3: a table of two buckets after two puts, a `hash_get_fast` and a remove;
then key 5 is put with 50 and removed. -/
theorem remove_after_put_witness :
    (hash_remove (hash_put (run_calls
        [hash_call.put 1 10, hash_call.put 3 30, hash_call.get_fast 1, hash_call.remove 3]
        sample_empty) 5 50).1 5).2 = 50 ∧
      hash_get (hash_remove (hash_put (run_calls
        [hash_call.put 1 10, hash_call.put 3 30, hash_call.get_fast 1, hash_call.remove 3]
        sample_empty) 5 50).1 5).1 5 = NULL ∧
      hash_count (hash_remove (hash_put (run_calls
        [hash_call.put 1 10, hash_call.put 3 30, hash_call.get_fast 1, hash_call.remove 3]
        sample_empty) 5 50).1 5).1 + 1 =
      hash_count (hash_put (run_calls
        [hash_call.put 1 10, hash_call.put 3 30, hash_call.get_fast 1, hash_call.remove 3]
        sample_empty) 5 50).1 :=
  remove_after_put 2 (fun k => k) (fun a b => a == b) sample_empty
    [hash_call.put 1 10, hash_call.put 3 30, hash_call.get_fast 1, hash_call.remove 3] 5 50
    rfl (fun a => by simp) (fun a b h => by simp at h ⊢; omega)
    (fun a b c h1 h2 => by simp at h1 h2 ⊢; omega)

/-- Claim C4 (idempotent miss): when no node in the bucket of the key has the cached hash of the
key and a key equal to it under `hash_equal`, `hash_remove` returns `NULL` (not found) and
leaves the table as it was; in particular `element_count` is unchanged. -/
theorem remove_absent_key (T : hash K) (key : K)
    (habsent : ∀ p ∈ T.bucket (T.hash_value key % T.bucket_count),
      ¬ (p.hv = T.hash_value key ∧ T.hash_equal p.key key = true)) :
    (hash_remove T key).2 = NULL ∧ (hash_remove T key).1 = T ∧
      hash_count (hash_remove T key).1 = hash_count T := by
  have hw : chain_walk T.hash_equal key (T.hash_value key)
      (T.bucket (T.hash_value key % T.bucket_count)) = none := by
    rw [chain_walk_none]
    intro p hp
    have h := habsent p hp
    by_contra hm
    apply h
    simpa [node_matches] using hm
  rw [hash_remove_miss T key hw]
  exact ⟨rfl, rfl, rfl⟩

/-- Witness of C4: key 6 falls into bucket 0 of the sample table, which holds keys 4 and 2. -/
theorem remove_absent_key_witness :
    (∀ p ∈ sample_table.bucket (sample_table.hash_value 6 % sample_table.bucket_count),
      ¬ (p.hv = sample_table.hash_value 6 ∧ sample_table.hash_equal p.key 6 = true)) ∧
    (hash_remove sample_table 6).2 = NULL ∧ (hash_remove sample_table 6).1 = sample_table ∧
      hash_count (hash_remove sample_table 6).1 = hash_count sample_table :=
  ⟨by decide, remove_absent_key sample_table 6 (by decide)⟩

/-- Claim C5 (count of distinct puts): starting from a freshly created table (any
`bucket_count > 0`, any `hash_value`), one `hash_put` per key of a list of keys none of which
equals a later one under `hash_equal`, with no removes, makes `hash_count` the length of the
list. -/
theorem count_after_distinct_puts (n : Nat) (hash_value : K → Nat)
    (hash_equal : K → K → Bool) (T0 : hash K) (kvs : List (K × void_ptr))
    (hcreate : hash_create_bucket_count n hash_value hash_equal = some T0)
    (hdistinct : kvs.Pairwise (fun a b => hash_equal a.1 b.1 = false)) :
    hash_count (run_calls (kvs.map (fun kv => hash_call.put kv.1 kv.2)) T0) = kvs.length := by
  obtain ⟨_, rfl⟩ := hash_create_bucket_count_some hcreate
  have h := run_puts_count kvs
    { buckets := List.replicate n [], element_count := 0,
      hash_value := hash_value, hash_equal := hash_equal }
    (by
      intro p hp
      have hnil : (List.replicate n ([] : List (hash_node K))).flatten = [] := by
        simp [List.flatten_eq_nil_iff]
      simp only [all_nodes, hnil] at hp
      cases hp)
    hdistinct
  simpa [hash_count] using h

/-- Witness of C5: three distinct keys, two of them in the same bucket. -/
theorem count_after_distinct_puts_witness :
    hash_count (run_calls
      ([(1, 10), (3, 30), (4, 40)].map (fun kv => hash_call.put kv.1 kv.2)) sample_empty) = 3 :=
  count_after_distinct_puts 2 (fun k => k) (fun a b => a == b) sample_empty
    [(1, 10), (3, 30), (4, 40)] rfl (by decide)

/-- Claim C6 (count invariant): in every table reached from `hash_create_bucket_count` by a
sequence of `hash_put`, `hash_get`, `hash_get_fast`, `hash_remove` and `hash_clear` calls,
`element_count` equals the total number of nodes over all bucket chains. -/
theorem count_invariant (n : Nat) (hash_value : K → Nat) (hash_equal : K → K → Bool)
    (T0 : hash K) (calls : List (hash_call K))
    (hcreate : hash_create_bucket_count n hash_value hash_equal = some T0) :
    (run_calls calls T0).element_count = node_count (run_calls calls T0) := by
  obtain ⟨hpos, hcount⟩ := created_count hcreate
  exact (run_calls_keeps_count calls T0 hpos hcount).2

/-- Witness of C6: a run with all five calls, the clear on a chain of two nodes. -/
theorem count_invariant_witness :
    (run_calls [hash_call.put 1 10, hash_call.put 3 30, hash_call.get 1, hash_call.clear,
        hash_call.get_fast 1, hash_call.put 2 20, hash_call.remove 1] sample_empty).element_count
      = node_count (run_calls [hash_call.put 1 10, hash_call.put 3 30, hash_call.get 1,
        hash_call.clear, hash_call.get_fast 1, hash_call.put 2 20, hash_call.remove 1]
        sample_empty) :=
  count_invariant 2 (fun k => k) (fun a b => a == b) sample_empty
    [hash_call.put 1 10, hash_call.put 3 30, hash_call.get 1, hash_call.clear,
      hash_call.get_fast 1, hash_call.put 2 20, hash_call.remove 1] rfl

/-- Claim C7 (clear empties the table), evaluated where the code breaks it: a table of one
bucket after `hash_put` of keys 1 and 2 holds a chain of two nodes; the loop of `hash_clear`
frees only the head, node 1 stays in the chain, `element_count` is 1, and the final assertion
of `hash_clear` fails. -/
theorem hash_clear_leaves_chain_tail :
    ∃ T0 : hash Nat,
      hash_create_bucket_count 1 (fun k => k) (fun a b => a == b) = some T0 ∧
      (run_calls [hash_call.put 1 10, hash_call.put 2 20] T0).buckets
        = [[⟨2, 20, 2⟩, ⟨1, 10, 1⟩]] ∧
      (run_calls [hash_call.put 1 10, hash_call.put 2 20] T0).element_count = 2 ∧
      (hash_clear_body (run_calls [hash_call.put 1 10, hash_call.put 2 20] T0)).buckets
        = [[⟨1, 10, 1⟩]] ∧
      (hash_clear_body (run_calls [hash_call.put 1 10, hash_call.put 2 20] T0)).element_count
        = 1 ∧
      (hash_clear (run_calls [hash_call.put 1 10, hash_call.put 2 20] T0)).isSome = false :=
  ⟨{ buckets := [[]], element_count := 0, hash_value := fun k => k,
     hash_equal := fun a b => a == b }, rfl, by decide, by decide, by decide, by decide,
   by decide⟩

/-- Claim C8 (iteration completeness): for a table whose bucket count is a `size_t` value, a
traversal from a fresh iterator by `hash_iter_hasnext` / `hash_iter_next`, given more fuel
than there are nodes, ends and yields the pair of every node exactly once, bucket after
bucket and each chain from its head, and nothing else; its length is the number of nodes. -/
theorem traversal_complete (T : hash K) (hsize : T.bucket_count ≤ SIZE_MAX) (fuel : Nat)
    (hfuel : node_count T < fuel) :
    hash_iter_traverse fuel (hash_make_iter T) = some ((all_nodes T).map hash_node.pair) ∧
      ((all_nodes T).map hash_node.pair).length = node_count T := by
  refine ⟨traverse_fresh T ?_ fuel hfuel, ?_⟩
  · simp only [SIZE_MAX, SIZE_MOD] at hsize ⊢
    omega
  · rw [List.length_map]
    simp [all_nodes, node_count, List.length_flatten]

/-- Witness of C8: the three nodes of the sample table. -/
theorem traversal_complete_witness :
    hash_iter_traverse 4 (hash_make_iter sample_table) =
        some ((all_nodes sample_table).map hash_node.pair) ∧
      ((all_nodes sample_table).map hash_node.pair).length = node_count sample_table :=
  traversal_complete sample_table (by decide) 4 (by decide)

/-- Claim C9 (rewind): after any number of `hash_iter_hasnext` calls on an iterator over a
table, `hash_iter_rewind` followed by a full traversal yields the same sequence of pairs as a
full traversal from a fresh iterator, namely the pairs of all nodes. -/
theorem rewind_then_traverse (T : hash K) (n : Nat) (hsize : T.bucket_count ≤ SIZE_MAX)
    (fuel : Nat) (hfuel : node_count T < fuel) :
    hash_iter_traverse fuel (hash_iter_rewind (hash_iter_advance n (hash_make_iter T))) =
        hash_iter_traverse fuel (hash_make_iter T) ∧
      hash_iter_traverse fuel (hash_iter_rewind (hash_iter_advance n (hash_make_iter T))) =
        some ((all_nodes T).map hash_node.pair) := by
  rw [hash_iter_rewind_advance]
  refine ⟨rfl, traverse_fresh T ?_ fuel hfuel⟩
  simp only [SIZE_MAX, SIZE_MOD] at hsize ⊢
  omega

/-- Witness of C9: the sample table, rewound after two calls of `hash_iter_hasnext`. -/
theorem rewind_then_traverse_witness :
    hash_iter_traverse 4 (hash_iter_rewind (hash_iter_advance 2 (hash_make_iter sample_table)))
        = hash_iter_traverse 4 (hash_make_iter sample_table) ∧
      hash_iter_traverse 4 (hash_iter_rewind (hash_iter_advance 2 (hash_make_iter sample_table)))
        = some ((all_nodes sample_table).map hash_node.pair) :=
  rewind_then_traverse sample_table 2 (by decide) 4 (by decide)

/-- Claim C10 (empty table): for every `bucket_count > 0` and every pair of caller functions,
`hash_create_bucket_count` returns a table with `hash_isempty` true and `hash_count` 0, and
the first `hash_iter_hasnext` on a fresh iterator over it returns false. -/
theorem created_table_empty (n : Nat) (hash_value : K → Nat) (hash_equal : K → K → Bool)
    (hn : 0 < n) :
    ∃ T, hash_create_bucket_count n hash_value hash_equal = some T ∧
      hash_isempty T = true ∧ hash_count T = 0 ∧
      (hash_iter_hasnext (hash_make_iter T)).2 = false := by
  have hc : hash_create_bucket_count n hash_value hash_equal =
      some { buckets := List.replicate n [], element_count := 0,
             hash_value := hash_value, hash_equal := hash_equal } := by
    have hne : n ≠ 0 := by omega
    simp [hash_create_bucket_count, hne]
  exact ⟨_, hc, by simp [hash_isempty], rfl, hasnext_fresh_created hc⟩

/-- Witness of C10: four buckets. -/
theorem created_table_empty_witness :
    ∃ T, hash_create_bucket_count 4 (fun k : Nat => k) (fun a b => a == b) = some T ∧
      hash_isempty T = true ∧ hash_count T = 0 ∧
      (hash_iter_hasnext (hash_make_iter T)).2 = false :=
  created_table_empty 4 (fun k => k) (fun a b => a == b) (by decide)

theorem chain_walk_find (eq : K → K → Bool) (key : K) (hv : Nat) :
    ∀ chain : List (hash_node K),
      (chain_walk eq key hv chain).map (fun r => r.2.1) =
        chain.find? (node_matches eq key hv)
  | [] => by simp [chain_walk]
  | p :: next => by
    have ih := chain_walk_find eq key hv next
    by_cases hm : node_matches eq key hv p = true
    · simp [chain_walk, hm]
    · simp only [Bool.not_eq_true] at hm
      rw [List.find?_cons_of_neg _ (by simp [hm]), ← ih]
      cases hw : chain_walk eq key hv next with
      | none => simp [chain_walk, hm, hw]
      | some r => simp [chain_walk, hm, hw]

theorem chain_walk_of_split {eq : K → K → Bool} {key : K} {hv : Nat} :
    ∀ (passed : List (hash_node K)) (p : hash_node K) (rest : List (hash_node K)),
      node_matches eq key hv p = true → (∀ q ∈ passed, node_matches eq key hv q = false) →
      chain_walk eq key hv (passed ++ p :: rest) = some (passed, p, rest)
  | [], p, rest, hm, _ => by simp [chain_walk, hm]
  | a :: passed, p, rest, hm, hfirst => by
    have ha : node_matches eq key hv a = false := hfirst a (by simp)
    have ih := chain_walk_of_split passed p rest hm (fun q hq => hfirst q (by simp [hq]))
    simp [chain_walk, ha, ih]

theorem chain_walk_of_mem {eq : K → K → Bool} {key : K} {hv : Nat}
    {chain : List (hash_node K)} (h : ∃ q ∈ chain, node_matches eq key hv q = true) :
    ∃ passed p rest, chain_walk eq key hv chain = some (passed, p, rest) := by
  cases hw : chain_walk eq key hv chain with
  | none =>
    obtain ⟨q, hq, hm⟩ := h
    have := (chain_walk_none.mp hw) q hq
    rw [this] at hm
    cases hm
  | some r => exact ⟨r.1, r.2.1, r.2.2, rfl⟩

theorem bucket_set_bucket_ne (T : hash K) (hi j : Nat) (c : List (hash_node K))
    (hne : j ≠ hi) : (T.set_bucket hi c).bucket j = T.bucket j := by
  simp [hash.set_bucket, hash.bucket, List.getD, List.getElem?_set_ne (Ne.symm hne)]

theorem hash_get_hit (T : hash K) (key : K)
    {passed rest : List (hash_node K)} {p : hash_node K}
    (hw : chain_walk T.hash_equal key (T.hash_value key)
      (T.bucket (T.hash_value key % T.bucket_count)) = some (passed, p, rest)) :
    hash_get T key = p.value := by
  simp [hash_get, hash_get_node, hw]

theorem hash_get_eq_lookup (T : hash K) (key : K) :
    hash_get T key = ((hash_lookup T key).map hash_node.value).getD NULL := by
  cases hw : chain_walk T.hash_equal key (T.hash_value key)
      (T.bucket (T.hash_value key % T.bucket_count)) with
  | none => simp [hash_get_miss T key hw, hash_lookup, hw]
  | some r =>
    obtain ⟨passed, p, rest⟩ := r
    simp [hash_get_hit T key hw, hash_lookup, hw]

/-- Claim C11 (get_fast agrees with get): `hash_get_fast` returns what `hash_get` returns for
the same table and key (the same value, or `NULL` for not found), and `hash_get` on the table
that `hash_get_fast` leaves still returns it. -/
theorem get_fast_agrees_with_get (T : hash K) (key : K) :
    (hash_get_fast T key).2 = hash_get T key ∧
      hash_get (hash_get_fast T key).1 key = hash_get T key := by
  cases hw : chain_walk T.hash_equal key (T.hash_value key)
      (T.bucket (T.hash_value key % T.bucket_count)) with
  | none =>
    rw [hash_get_fast_miss T key hw, hash_get_miss T key hw]
    exact ⟨rfl, rfl⟩
  | some r =>
    obtain ⟨passed, p, rest⟩ := r
    obtain ⟨hchain, hm, _⟩ := chain_walk_some hw
    have hlt : T.hash_value key % T.bucket_count < T.bucket_count :=
      lt_of_bucket_ne_nil T _ (by rw [hchain]; simp)
    rw [hash_get_fast_hit T key hw, hash_get_hit T key hw]
    refine ⟨rfl, ?_⟩
    exact @hash_get_head K (T.set_bucket (T.hash_value key % T.bucket_count)
      (p :: (passed ++ rest))) key p (passed ++ rest)
      (by rw [bucket_count_set_bucket]; exact bucket_set_bucket_self T _ _ hlt) hm

/-- Claim C12 (promotion effect): when the lookup of `hash_get_fast` finds a node for the key,
that node is afterwards the first of bucket `hash_value key % bucket_count`, followed by the
other nodes of the bucket in their old order; all other buckets, the bucket count and
`element_count` are as before, and the nodes are the same records (keys, values, hashes). -/
theorem get_fast_promotes (T : hash K) (key : K)
    (hfound : ∃ q ∈ T.bucket (T.hash_value key % T.bucket_count),
      node_matches T.hash_equal key (T.hash_value key) q = true) :
    ∃ passed p rest,
      T.bucket (T.hash_value key % T.bucket_count) = passed ++ p :: rest ∧
      node_matches T.hash_equal key (T.hash_value key) p = true ∧
      (∀ q ∈ passed, node_matches T.hash_equal key (T.hash_value key) q = false) ∧
      (hash_get_fast T key).2 = p.value ∧
      (hash_get_fast T key).1.bucket (T.hash_value key % T.bucket_count)
        = p :: (passed ++ rest) ∧
      (∀ j, j ≠ T.hash_value key % T.bucket_count →
        (hash_get_fast T key).1.bucket j = T.bucket j) ∧
      (hash_get_fast T key).1.bucket_count = T.bucket_count ∧
      (hash_get_fast T key).1.element_count = T.element_count := by
  obtain ⟨passed, p, rest, hw⟩ := chain_walk_of_mem hfound
  obtain ⟨hchain, hm, hfirst⟩ := chain_walk_some hw
  have hlt : T.hash_value key % T.bucket_count < T.bucket_count :=
    lt_of_bucket_ne_nil T _ (by rw [hchain]; simp)
  refine ⟨passed, p, rest, hchain, hm, hfirst, ?_⟩
  rw [hash_get_fast_hit T key hw]
  exact ⟨rfl, bucket_set_bucket_self T _ _ hlt,
    fun j hj => bucket_set_bucket_ne T _ j _ hj, bucket_count_set_bucket T _ _, rfl⟩

/-- Witness of C12: key 2 is the second node of bucket 0 of the sample table. -/
theorem get_fast_promotes_witness :
    ∃ passed p rest,
      sample_table.bucket (sample_table.hash_value 2 % sample_table.bucket_count)
        = passed ++ p :: rest ∧
      node_matches sample_table.hash_equal 2 (sample_table.hash_value 2) p = true ∧
      (∀ q ∈ passed, node_matches sample_table.hash_equal 2 (sample_table.hash_value 2) q
        = false) ∧
      (hash_get_fast sample_table 2).2 = p.value ∧
      (hash_get_fast sample_table 2).1.bucket
        (sample_table.hash_value 2 % sample_table.bucket_count) = p :: (passed ++ rest) ∧
      (∀ j, j ≠ sample_table.hash_value 2 % sample_table.bucket_count →
        (hash_get_fast sample_table 2).1.bucket j = sample_table.bucket j) ∧
      (hash_get_fast sample_table 2).1.bucket_count = sample_table.bucket_count ∧
      (hash_get_fast sample_table 2).1.element_count = sample_table.element_count :=
  get_fast_promotes sample_table 2 ⟨⟨2, 20, 2⟩, by decide, by decide⟩

/-- Claim C15 (remove unlinks one entry and keeps order): when `hash_remove` finds a node for
the key, the chain of bucket `hash_value key % bucket_count` is afterwards the old chain
without its first matching node, the other nodes in their old order; every other bucket is
as before. -/
theorem remove_unlinks_first_match (T : hash K) (key : K)
    (hfound : ∃ q ∈ T.bucket (T.hash_value key % T.bucket_count),
      node_matches T.hash_equal key (T.hash_value key) q = true) :
    ∃ passed p rest,
      T.bucket (T.hash_value key % T.bucket_count) = passed ++ p :: rest ∧
      node_matches T.hash_equal key (T.hash_value key) p = true ∧
      (∀ q ∈ passed, node_matches T.hash_equal key (T.hash_value key) q = false) ∧
      (hash_remove T key).2 = p.value ∧
      (hash_remove T key).1.bucket (T.hash_value key % T.bucket_count) = passed ++ rest ∧
      (∀ j, j ≠ T.hash_value key % T.bucket_count →
        (hash_remove T key).1.bucket j = T.bucket j) ∧
      (hash_remove T key).1.bucket_count = T.bucket_count := by
  obtain ⟨passed, p, rest, hw⟩ := chain_walk_of_mem hfound
  obtain ⟨hchain, hm, hfirst⟩ := chain_walk_some hw
  have hlt : T.hash_value key % T.bucket_count < T.bucket_count :=
    lt_of_bucket_ne_nil T _ (by rw [hchain]; simp)
  refine ⟨passed, p, rest, hchain, hm, hfirst, ?_⟩
  rw [hash_remove_hit T key hw]
  exact ⟨rfl, bucket_set_bucket_self T _ _ hlt,
    fun j hj => bucket_set_bucket_ne T _ j _ hj, bucket_count_set_bucket T _ _⟩

/-- Witness of C15: key 2 is the second node of bucket 0 of the sample table. -/
theorem remove_unlinks_first_match_witness :
    ∃ passed p rest,
      sample_table.bucket (sample_table.hash_value 2 % sample_table.bucket_count)
        = passed ++ p :: rest ∧
      node_matches sample_table.hash_equal 2 (sample_table.hash_value 2) p = true ∧
      (∀ q ∈ passed, node_matches sample_table.hash_equal 2 (sample_table.hash_value 2) q
        = false) ∧
      (hash_remove sample_table 2).2 = p.value ∧
      (hash_remove sample_table 2).1.bucket
        (sample_table.hash_value 2 % sample_table.bucket_count) = passed ++ rest ∧
      (∀ j, j ≠ sample_table.hash_value 2 % sample_table.bucket_count →
        (hash_remove sample_table 2).1.bucket j = sample_table.bucket j) ∧
      (hash_remove sample_table 2).1.bucket_count = sample_table.bucket_count :=
  remove_unlinks_first_match sample_table 2 ⟨⟨2, 20, 2⟩, by decide, by decide⟩

theorem node_count_set_bucket_same_length (T : hash K) (hi : Nat) (c : List (hash_node K))
    (hlt : hi < T.bucket_count) (hlen : c.length = (T.bucket hi).length) :
    node_count (T.set_bucket hi c) = node_count T := by
  have h := node_count_set_bucket T hi c hlt
  omega

/-- Claim C16 (put on an existing key replaces only the value): when the bucket of `key2`
holds a node `e` that matches `key2` (cached hash equal to the hash of `key2`, `hash_equal`
of the stored key and `key2` true) and is the first such node, `hash_put` of `key2` with
`value2` keeps the stored key and the cached hash of `e`, sets its value to `value2` and adds
no node; a later traversal reports the pair of the stored key with `value2`, and every key
it reports was stored before the put. -/
theorem put_existing_replaces_value (T : hash K) (key2 : K) (value2 : void_ptr)
    (passed rest : List (hash_node K)) (e : hash_node K)
    (hchain : T.bucket (T.hash_value key2 % T.bucket_count) = passed ++ e :: rest)
    (hmatch : node_matches T.hash_equal key2 (T.hash_value key2) e = true)
    (hfirst : ∀ q ∈ passed, node_matches T.hash_equal key2 (T.hash_value key2) q = false)
    (hsize : T.bucket_count ≤ SIZE_MAX) (fuel : Nat) (hfuel : node_count T < fuel) :
    (hash_put T key2 value2).2 = e.value ∧
      (hash_put T key2 value2).1.bucket (T.hash_value key2 % T.bucket_count)
        = { key := e.key, value := value2, hv := e.hv } :: (passed ++ rest) ∧
      (∀ j, j ≠ T.hash_value key2 % T.bucket_count →
        (hash_put T key2 value2).1.bucket j = T.bucket j) ∧
      (hash_put T key2 value2).1.element_count = T.element_count ∧
      node_count (hash_put T key2 value2).1 = node_count T ∧
      ∃ pairs, hash_iter_traverse fuel (hash_make_iter (hash_put T key2 value2).1)
          = some pairs ∧
        { key := e.key, value := value2 } ∈ pairs ∧
        ∀ pr ∈ pairs, ∃ q ∈ all_nodes T, q.key = pr.key := by
  have hw : chain_walk T.hash_equal key2 (T.hash_value key2)
      (T.bucket (T.hash_value key2 % T.bucket_count)) = some (passed, e, rest) := by
    rw [hchain]
    exact chain_walk_of_split passed e rest hmatch hfirst
  have hlt : T.hash_value key2 % T.bucket_count < T.bucket_count :=
    lt_of_bucket_ne_nil T _ (by rw [hchain]; simp)
  have hsize2 : T.bucket_count < SIZE_MOD := by
    simp only [SIZE_MAX, SIZE_MOD] at hsize ⊢
    omega
  rw [hash_put_hit T key2 value2 hw]
  have hbucket := bucket_set_bucket_self T (T.hash_value key2 % T.bucket_count)
    ({ e with value := value2 } :: (passed ++ rest)) hlt
  have hnc : node_count (T.set_bucket (T.hash_value key2 % T.bucket_count)
      ({ e with value := value2 } :: (passed ++ rest))) = node_count T :=
    node_count_set_bucket_same_length T _ _ hlt (by rw [hchain]; simp; omega)
  refine ⟨rfl, hbucket, fun j hj => bucket_set_bucket_ne T _ j _ hj, rfl, hnc, ?_⟩
  refine ⟨_, traverse_fresh _ (by rw [bucket_count_set_bucket]; exact hsize2) fuel
    (by rw [hnc]; exact hfuel), ?_, ?_⟩
  · rw [List.mem_map]
    refine ⟨{ e with value := value2 }, ?_, rfl⟩
    apply mem_all_nodes_of_mem_bucket _ (T.hash_value key2 % T.bucket_count)
    rw [hbucket]
    simp
  · intro pr hpr
    rw [List.mem_map] at hpr
    obtain ⟨q, hq, rfl⟩ := hpr
    rcases mem_flatten_set T.buckets _ _ q hq with h | h
    · rcases List.mem_cons.mp h with h | h
      · refine ⟨e, mem_all_nodes_of_mem_bucket T _ e (by rw [hchain]; simp), ?_⟩
        rw [h]
        rfl
      · refine ⟨q, mem_all_nodes_of_mem_bucket T (T.hash_value key2 % T.bucket_count) q ?_, rfl⟩
        rw [hchain]
        rcases List.mem_append.mp h with h | h
        · simp [h]
        · simp [h]
    · exact ⟨q, h, rfl⟩

/-- Witness of C16: key 2 of the sample table, the second node of its bucket, gets value
21. -/
theorem put_existing_replaces_value_witness :
    (hash_put sample_table 2 21).2 = 20 ∧
      (hash_put sample_table 2 21).1.bucket
          (sample_table.hash_value 2 % sample_table.bucket_count)
        = { key := 2, value := 21, hv := 2 } :: ([⟨4, 40, 4⟩] ++ []) ∧
      (∀ j, j ≠ sample_table.hash_value 2 % sample_table.bucket_count →
        (hash_put sample_table 2 21).1.bucket j = sample_table.bucket j) ∧
      (hash_put sample_table 2 21).1.element_count = sample_table.element_count ∧
      node_count (hash_put sample_table 2 21).1 = node_count sample_table ∧
      ∃ pairs, hash_iter_traverse 4 (hash_make_iter (hash_put sample_table 2 21).1)
          = some pairs ∧
        { key := 2, value := 21 } ∈ pairs ∧
        ∀ pr ∈ pairs, ∃ q ∈ all_nodes sample_table, q.key = pr.key :=
  put_existing_replaces_value sample_table 2 21 [⟨4, 40, 4⟩] [] ⟨2, 20, 2⟩
    (by decide) (by decide) (by decide) (by decide) 4 (by decide)

theorem hash_lookup_eq_find (T : hash K) (key : K) :
    hash_lookup T key = (T.bucket (T.hash_value key % T.bucket_count)).find?
      (node_matches T.hash_equal key (T.hash_value key)) :=
  chain_walk_find T.hash_equal key (T.hash_value key) _

/-- A table that differs from `T` in one chain at most answers a lookup as `T` does when the
new chain and the old one give the lookup the same first match. -/
theorem hash_lookup_update (T T1 : hash K) (hi : Nat) (c1 : List (hash_node K)) (key1 : K)
    (hb : T1.buckets = T.buckets.set hi c1) (he : T1.hash_equal = T.hash_equal)
    (hh : T1.hash_value = T.hash_value)
    (hfind : c1.find? (node_matches T.hash_equal key1 (T.hash_value key1)) =
      (T.bucket hi).find? (node_matches T.hash_equal key1 (T.hash_value key1))) :
    hash_lookup T1 key1 = hash_lookup T key1 := by
  rw [hash_lookup_eq_find, hash_lookup_eq_find, he, hh]
  have hbc : T1.bucket_count = T.bucket_count := by
    simp [hash.bucket_count, hb]
  rw [hbc]
  by_cases hj : T.hash_value key1 % T.bucket_count = hi
  · by_cases hlt : hi < T.buckets.length
    · have h1 : T1.bucket (T.hash_value key1 % T.bucket_count) = c1 := by
        rw [hj]
        simp [hash.bucket, hb, List.getD, hlt]
      rw [h1, hfind, hj]
    · have h1 : T1.bucket (T.hash_value key1 % T.bucket_count) =
          T.bucket (T.hash_value key1 % T.bucket_count) := by
        simp only [not_lt] at hlt
        simp [hash.bucket, hb, List.set_eq_of_length_le hlt]
      rw [h1]
  · have h1 : T1.bucket (T.hash_value key1 % T.bucket_count) =
        T.bucket (T.hash_value key1 % T.bucket_count) := by
      simp [hash.bucket, hb, List.getD, List.getElem?_set_ne (Ne.symm hj)]
    rw [h1]

/-- A node that matches one key does not match a key that `hash_equal` tells apart from it,
when `hash_equal` is symmetric and transitive. -/
theorem not_matches_other {eq : K → K → Bool}
    (hsymm : ∀ a b, eq a b = true → eq b a = true)
    (htrans : ∀ a b c, eq a b = true → eq b c = true → eq a c = true)
    {key key1 : K} {hv hv1 : Nat} {p : hash_node K} (hne : eq key key1 = false)
    (hm : node_matches eq key hv p = true) : node_matches eq key1 hv1 p = false := by
  by_contra hcon
  simp only [Bool.not_eq_false] at hcon
  simp only [node_matches, Bool.and_eq_true, decide_eq_true_eq] at hm hcon
  have := htrans _ _ _ (hsymm _ _ hm.2) hcon.2
  rw [hne] at this
  cases this

theorem find_skip_middle {α : Type} (m : α → Bool) (passed rest : List α) (p : α)
    (hp : m p = false) : (passed ++ p :: rest).find? m = (passed ++ rest).find? m := by
  simp [List.find?_append, List.find?_cons, hp]

theorem hash_lookup_put_other (T : hash K) (key key1 : K) (value : void_ptr)
    (hsymm : ∀ a b, T.hash_equal a b = true → T.hash_equal b a = true)
    (htrans : ∀ a b c, T.hash_equal a b = true → T.hash_equal b c = true →
      T.hash_equal a c = true)
    (hne : T.hash_equal key key1 = false) :
    hash_lookup (hash_put T key value).1 key1 = hash_lookup T key1 := by
  cases hw : chain_walk T.hash_equal key (T.hash_value key)
      (T.bucket (T.hash_value key % T.bucket_count)) with
  | none =>
    rw [hash_put_miss T key value hw]
    refine hash_lookup_update T
      { T.set_bucket (T.hash_value key % T.bucket_count)
          ({ key := key, value := value, hv := T.hash_value key } ::
            T.bucket (T.hash_value key % T.bucket_count)) with
        element_count := T.element_count + 1 }
      (T.hash_value key % T.bucket_count)
      ({ key := key, value := value, hv := T.hash_value key } ::
        T.bucket (T.hash_value key % T.bucket_count)) key1 rfl rfl rfl ?_
    rw [List.find?_cons_of_neg]
    simp [node_matches, hne]
  | some r =>
    obtain ⟨passed, p, rest⟩ := r
    obtain ⟨hchain, hm, _⟩ := chain_walk_some hw
    rw [hash_put_hit T key value hw]
    refine hash_lookup_update T
      (T.set_bucket (T.hash_value key % T.bucket_count)
        ({ p with value := value } :: (passed ++ rest)))
      (T.hash_value key % T.bucket_count)
      ({ p with value := value } :: (passed ++ rest)) key1 rfl rfl rfl ?_
    have hp := @not_matches_other K T.hash_equal hsymm htrans key key1 (T.hash_value key)
      (T.hash_value key1) p hne hm
    rw [hchain, find_skip_middle _ passed rest p hp, List.find?_cons_of_neg]
    simpa [node_matches] using hp

theorem hash_lookup_remove_other (T : hash K) (key key1 : K)
    (hsymm : ∀ a b, T.hash_equal a b = true → T.hash_equal b a = true)
    (htrans : ∀ a b c, T.hash_equal a b = true → T.hash_equal b c = true →
      T.hash_equal a c = true)
    (hne : T.hash_equal key key1 = false) :
    hash_lookup (hash_remove T key).1 key1 = hash_lookup T key1 := by
  cases hw : chain_walk T.hash_equal key (T.hash_value key)
      (T.bucket (T.hash_value key % T.bucket_count)) with
  | none => rw [hash_remove_miss T key hw]
  | some r =>
    obtain ⟨passed, p, rest⟩ := r
    obtain ⟨hchain, hm, _⟩ := chain_walk_some hw
    rw [hash_remove_hit T key hw]
    refine hash_lookup_update T
      { T.set_bucket (T.hash_value key % T.bucket_count) (passed ++ rest) with
        element_count := size_dec T.element_count }
      (T.hash_value key % T.bucket_count) (passed ++ rest) key1 rfl rfl rfl ?_
    have hp := @not_matches_other K T.hash_equal hsymm htrans key key1 (T.hash_value key)
      (T.hash_value key1) p hne hm
    rw [hchain, find_skip_middle _ passed rest p hp]

theorem hash_lookup_get_fast_other (T : hash K) (key key1 : K)
    (hsymm : ∀ a b, T.hash_equal a b = true → T.hash_equal b a = true)
    (htrans : ∀ a b c, T.hash_equal a b = true → T.hash_equal b c = true →
      T.hash_equal a c = true)
    (hne : T.hash_equal key key1 = false) :
    hash_lookup (hash_get_fast T key).1 key1 = hash_lookup T key1 := by
  cases hw : chain_walk T.hash_equal key (T.hash_value key)
      (T.bucket (T.hash_value key % T.bucket_count)) with
  | none => rw [hash_get_fast_miss T key hw]
  | some r =>
    obtain ⟨passed, p, rest⟩ := r
    obtain ⟨hchain, hm, _⟩ := chain_walk_some hw
    rw [hash_get_fast_hit T key hw]
    refine hash_lookup_update T
      (T.set_bucket (T.hash_value key % T.bucket_count) (p :: (passed ++ rest)))
      (T.hash_value key % T.bucket_count) (p :: (passed ++ rest)) key1 rfl rfl rfl ?_
    have hp := @not_matches_other K T.hash_equal hsymm htrans key key1 (T.hash_value key)
      (T.hash_value key1) p hne hm
    rw [hchain, find_skip_middle _ passed rest p hp, List.find?_cons_of_neg]
    simpa using hp

/-- Claim C19 (other keys are unaffected): when `hash_equal` is symmetric and transitive and
tells `key` and `key1` apart, `hash_get` of `key1` gives the same result on the table after
`hash_put`, after `hash_remove` and after `hash_get_fast` of `key` as on the table before. -/
theorem other_key_unaffected (T : hash K) (key key1 : K) (value : void_ptr)
    (hsymm : ∀ a b, T.hash_equal a b = true → T.hash_equal b a = true)
    (htrans : ∀ a b c, T.hash_equal a b = true → T.hash_equal b c = true →
      T.hash_equal a c = true)
    (hne : T.hash_equal key key1 = false) :
    hash_get (hash_put T key value).1 key1 = hash_get T key1 ∧
      hash_get (hash_remove T key).1 key1 = hash_get T key1 ∧
      hash_get (hash_get_fast T key).1 key1 = hash_get T key1 := by
  simp only [hash_get_eq_lookup]
  rw [hash_lookup_put_other T key key1 value hsymm htrans hne,
    hash_lookup_remove_other T key key1 hsymm htrans hne,
    hash_lookup_get_fast_other T key key1 hsymm htrans hne]
  exact ⟨rfl, rfl, rfl⟩

/-- Witness of C19: keys 2 and 4 share bucket 0 of the sample table. -/
theorem other_key_unaffected_witness :
    hash_get (hash_put sample_table 2 21).1 4 = hash_get sample_table 4 ∧
      hash_get (hash_remove sample_table 2).1 4 = hash_get sample_table 4 ∧
      hash_get (hash_get_fast sample_table 2).1 4 = hash_get sample_table 4 :=
  other_key_unaffected sample_table 2 4 21
    (fun a b h => by simp [sample_table] at h ⊢; omega)
    (fun a b c h1 h2 => by simp [sample_table] at h1 h2 ⊢; omega) (by decide)

theorem hasnext_single_stuck (b : Nat) (hb : b + 1 < SIZE_MOD) :
    hash_iter_hasnext { hash := sample_single, bi := b, ptr := [⟨1, 10, 1⟩] } =
      ({ hash := sample_single, bi := b + 1, ptr := [⟨1, 10, 1⟩] }, false) := by
  have hmod : (b + 1) % SIZE_MOD = b + 1 := Nat.mod_eq_of_lt hb
  have hdrop : List.drop (b + 1) sample_single.buckets = [] := by
    simp [sample_single]
  simp only [hash_iter_hasnext, hmod, hdrop, hash_iter_scan]

theorem advance_single_stuck : ∀ (n b : Nat), b + n < SIZE_MOD →
    hash_iter_advance n { hash := sample_single, bi := b, ptr := [⟨1, 10, 1⟩] } =
      { hash := sample_single, bi := b + n, ptr := [⟨1, 10, 1⟩] }
  | 0, _, _ => rfl
  | n + 1, b, h => by
    rw [hash_iter_advance, hasnext_single_stuck b (by omega),
      advance_single_stuck n (b + 1) (by omega)]
    congr 1
    omega

/-- Claim C14 (exhaustion is sticky), evaluated where the code breaks it: over the table of
one bucket with one node, the second `hash_iter_hasnext` of a fresh iterator returns false,
and after `SIZE_MOD` calls in all, with no rewind and no change of the table, the next call
returns true again: the calls after the exhaustion keep incrementing `bi` until it wraps
around to bucket 0. -/
theorem hasnext_true_after_false :
    (hash_iter_hasnext (hash_iter_advance 1 (hash_make_iter sample_single))).2 = false ∧
      (hash_iter_hasnext (hash_iter_advance SIZE_MOD (hash_make_iter sample_single))).2
        = true := by
  have hfirst : (hash_iter_hasnext (hash_make_iter sample_single)).1 =
      { hash := sample_single, bi := 0, ptr := [⟨1, 10, 1⟩] } := rfl
  have hsucc : SIZE_MOD = (SIZE_MOD - 1) + 1 := by decide
  constructor
  · decide
  · rw [hsucc, hash_iter_advance, hfirst, advance_single_stuck (SIZE_MOD - 1) 0 (by decide)]
    decide

/-- Claim C17 (next outside a live position is rejected), evaluated where the code breaks
it: over the table of one bucket with one node (the table after `hash_put` of key 1), on a
fresh iterator the assertion of `hash_iter_next` fails; the first `hash_iter_hasnext`
returns true and the second false, but the second leaves `ptr` on the last node, so
`hash_iter_next` after the exhaustion passes its assertion and returns the pair of that
node again. -/
theorem next_accepted_after_exhaustion :
    (∃ T0, hash_create_bucket_count 1 (fun k : Nat => k) (fun a b => a == b) = some T0 ∧
      (run_calls [hash_call.put 1 10] T0).buckets = sample_single.buckets ∧
      (run_calls [hash_call.put 1 10] T0).element_count = sample_single.element_count) ∧
    hash_iter_next (hash_make_iter sample_single) = none ∧
    (hash_iter_hasnext (hash_make_iter sample_single)).2 = true ∧
    (hash_iter_hasnext (hash_iter_advance 1 (hash_make_iter sample_single))).2 = false ∧
    (hash_iter_advance 2 (hash_make_iter sample_single)).ptr = [⟨1, 10, 1⟩] ∧
    hash_iter_next (hash_iter_advance 2 (hash_make_iter sample_single))
      = some { key := 1, value := 10 } :=
  ⟨⟨{ buckets := [[]], element_count := 0, hash_value := fun k => k,
      hash_equal := fun a b => a == b }, rfl, by decide, by decide⟩,
    by decide, by decide, by decide, by decide, by decide⟩

theorem hash_clear_loop_tails :
    ∀ (slots : List (List (hash_node K))) (n : Nat),
      (hash_clear_loop slots n).1 = slots.map List.tail
  | [], _ => by simp [hash_clear_loop]
  | [] :: slots, n => by simp [hash_clear_loop, hash_clear_loop_tails slots n]
  | (_ :: _) :: slots, n => by
    simp [hash_clear_loop, hash_clear_loop_tails slots (size_dec n)]

theorem hash_clear_loop_decrements :
    ∀ (slots : List (List (hash_node K))) (n : Nat),
      (hash_clear_loop slots n).2 =
        Nat.iterate size_dec (slots.countP (fun c => !c.isEmpty)) n
  | [], _ => by simp [hash_clear_loop]
  | [] :: slots, n => by simp [hash_clear_loop, hash_clear_loop_decrements slots n]
  | (_ :: _) :: slots, n => by
    simp [hash_clear_loop, hash_clear_loop_decrements slots (size_dec n),
      Function.iterate_succ_apply]

theorem tails_empty_iff {α : Type} : ∀ (slots : List (List α)),
    (∀ c ∈ slots.map List.tail, c = []) ↔ ∀ c ∈ slots, c.length ≤ 1
  | [] => by simp
  | c :: slots => by
    have ih := tails_empty_iff slots
    simp only [List.map_cons, List.mem_cons, forall_eq_or_imp, ih]
    constructor
    · rintro ⟨h1, h2⟩
      refine ⟨?_, h2⟩
      cases c with
      | nil => simp
      | cons a t =>
        simp only [List.tail_cons] at h1
        simp [h1]
    · rintro ⟨h1, h2⟩
      refine ⟨?_, h2⟩
      cases c with
      | nil => rfl
      | cons a t =>
        simp only [List.length_cons] at h1
        simp only [List.tail_cons]
        exact List.length_eq_zero.mp (by omega)

theorem sum_length_tails {α : Type} : ∀ (slots : List (List α)),
    (slots.map List.length).sum =
      ((slots.map List.tail).map List.length).sum + slots.countP (fun c => !c.isEmpty)
  | [] => by simp
  | [] :: slots => by
    have ih := sum_length_tails slots
    simpa using ih
  | (a :: t) :: slots => by
    have ih := sum_length_tails slots
    simp only [List.map_cons, List.sum_cons, List.length_cons, List.tail_cons]
    rw [List.countP_cons_of_pos _ _ (by simp), ih]
    omega

theorem sum_length_zero_iff {α : Type} : ∀ (slots : List (List α)),
    (slots.map List.length).sum = 0 ↔ ∀ c ∈ slots, c = []
  | [] => by simp
  | c :: slots => by
    have ih := sum_length_zero_iff slots
    simp only [List.map_cons, List.sum_cons, List.mem_cons, forall_eq_or_imp, ← ih]
    constructor
    · intro h
      exact ⟨List.length_eq_zero.mp (by omega), by omega⟩
    · rintro ⟨h1, h2⟩
      rw [h1, h2]
      rfl

/-- Claim C20 (what clear removes): the loop of `hash_clear` turns every chain into its own
tail, so it removes the head node of each non-empty bucket and nothing else, and decrements
`element_count` once per non-empty bucket; the table ends with all chains empty exactly when
every chain had at most one node. When `element_count` was the number of nodes before the
call, it goes down by the number of non-empty buckets, it ends at zero exactly when every
chain had at most one node, and so `hash_clear` (with `bucket_count > 0`) passes its final
assertion exactly then. -/
theorem clear_removes_heads (T : hash K) :
    (hash_clear_body T).buckets = T.buckets.map List.tail ∧
      (hash_clear_body T).element_count =
        Nat.iterate size_dec (T.buckets.countP (fun c => !c.isEmpty)) T.element_count ∧
      ((∀ c ∈ (hash_clear_body T).buckets, c = []) ↔ ∀ c ∈ T.buckets, c.length ≤ 1) ∧
      (T.element_count = node_count T →
        (hash_clear_body T).element_count + T.buckets.countP (fun c => !c.isEmpty)
          = T.element_count ∧
        ((hash_clear_body T).element_count = 0 ↔ ∀ c ∈ T.buckets, c.length ≤ 1) ∧
        (0 < T.bucket_count →
          ((hash_clear T).isSome = true ↔ ∀ c ∈ T.buckets, c.length ≤ 1))) := by
  have hb : (hash_clear_body T).buckets = T.buckets.map List.tail :=
    hash_clear_loop_tails T.buckets T.element_count
  refine ⟨hb, hash_clear_loop_decrements T.buckets T.element_count, ?_, ?_⟩
  · rw [hb]
    exact tails_empty_iff T.buckets
  · intro hcount
    have hc := hash_clear_loop_count T.buckets 0
    simp only [Nat.add_zero] at hc
    have hc2 : (hash_clear_body T).element_count =
        ((T.buckets.map List.tail).map List.length).sum := by
      simp only [hash_clear_body, hcount, node_count]
      rw [hc, hash_clear_loop_tails]
    have hzero : (hash_clear_body T).element_count = 0 ↔ ∀ c ∈ T.buckets, c.length ≤ 1 := by
      rw [hc2, sum_length_zero_iff, tails_empty_iff]
    refine ⟨?_, hzero, ?_⟩
    · rw [hc2, hcount, node_count]
      exact (sum_length_tails T.buckets).symm
    · intro hpos
      have hne : T.bucket_count ≠ 0 := by omega
      rw [← hzero]
      by_cases hz : (hash_clear_body T).element_count = 0
      · simp [hash_clear, hne, hz]
      · simp [hash_clear, hne, hz]

/-- Witness of C20: the sample table, with a chain of two nodes, whose `element_count` is
its number of nodes. -/
theorem clear_removes_heads_witness :
    (hash_clear_body sample_table).element_count
        + sample_table.buckets.countP (fun c => !c.isEmpty) = sample_table.element_count ∧
      ((hash_clear_body sample_table).element_count = 0 ↔
        ∀ c ∈ sample_table.buckets, c.length ≤ 1) ∧
      (0 < sample_table.bucket_count →
        ((hash_clear sample_table).isSome = true ↔
          ∀ c ∈ sample_table.buckets, c.length ≤ 1)) :=
  (clear_removes_heads sample_table).2.2.2 (by decide)

theorem mem_getD_set {α : Type} (l : List (List α)) (hi i : Nat) (c : List α) (x : α)
    (hx : x ∈ (l.set hi c).getD i []) : (i = hi ∧ x ∈ c) ∨ x ∈ l.getD i [] := by
  by_cases hj : i = hi
  · by_cases hlt : hi < l.length
    · left
      refine ⟨hj, ?_⟩
      rw [hj] at hx
      simpa [List.getD, hlt] using hx
    · right
      simp only [not_lt] at hlt
      rw [List.set_eq_of_length_le hlt] at hx
      exact hx
  · right
    simpa [List.getD, List.getElem?_set_ne (Ne.symm hj)] using hx

theorem mem_getD_tails {α : Type} : ∀ (l : List (List α)) (i : Nat) (x : α),
    x ∈ (l.map List.tail).getD i [] → x ∈ l.getD i []
  | [], _, _, h => by simp at h
  | c :: l, 0, x, h => by
    simp only [List.map_cons, List.getD_cons_zero] at h ⊢
    exact List.mem_of_mem_tail h
  | c :: l, i + 1, x, h => by
    simp only [List.map_cons, List.getD_cons_succ] at h ⊢
    exact mem_getD_tails l i x h

theorem nodes_placed_update (T T1 : hash K) (hi : Nat) (c : List (hash_node K))
    (hp : nodes_placed T) (hb : T1.buckets = T.buckets.set hi c)
    (hh : T1.hash_value = T.hash_value)
    (hc : ∀ p ∈ c, p.hv = T.hash_value p.key ∧ p.hv % T.bucket_count = hi) :
    nodes_placed T1 := by
  intro i p hmem
  have hbc : T1.bucket_count = T.bucket_count := by simp [hash.bucket_count, hb]
  rw [hh, hbc]
  simp only [hash.bucket, hb] at hmem
  rcases mem_getD_set T.buckets hi i c p hmem with ⟨h1, h2⟩ | h
  · rw [h1]
    exact hc p h2
  · exact hp i p h

/-- One call keeps every node under the hash of its key and in the bucket of that hash. -/
theorem run_keeps_placed (c : hash_call K) (T : hash K) (hp : nodes_placed T) :
    nodes_placed (c.run T) := by
  cases c with
  | get key => exact hp
  | clear =>
    intro i p hmem
    simp only [hash_call.run, hash.bucket, hash_clear_body, hash_clear_loop_tails] at hmem
    have hbc : (hash_clear_body T).bucket_count = T.bucket_count := by
      simp [hash_clear_body, hash.bucket_count, hash_clear_loop_length]
    simp only [hash_call.run]
    rw [hbc]
    exact hp i p (mem_getD_tails T.buckets i p hmem)
  | put key value =>
    simp only [hash_call.run]
    cases hw : chain_walk T.hash_equal key (T.hash_value key)
        (T.bucket (T.hash_value key % T.bucket_count)) with
    | none =>
      rw [hash_put_miss T key value hw]
      refine nodes_placed_update T _ (T.hash_value key % T.bucket_count)
        ({ key := key, value := value, hv := T.hash_value key } ::
          T.bucket (T.hash_value key % T.bucket_count)) hp rfl rfl ?_
      intro p hmem
      rcases List.mem_cons.mp hmem with h | h
      · rw [h]
        exact ⟨rfl, rfl⟩
      · exact hp _ p h
    | some r =>
      obtain ⟨passed, p, rest⟩ := r
      rw [hash_put_hit T key value hw]
      have hchain := (chain_walk_some hw).1
      refine nodes_placed_update T _ (T.hash_value key % T.bucket_count)
        ({ p with value := value } :: (passed ++ rest)) hp rfl rfl ?_
      intro q hmem
      rcases List.mem_cons.mp hmem with h | h
      · rw [h]
        exact hp _ p (by rw [hchain]; simp)
      · refine hp _ q ?_
        rw [hchain]
        rcases List.mem_append.mp h with h | h
        · simp [h]
        · simp [h]
  | get_fast key =>
    simp only [hash_call.run]
    cases hw : chain_walk T.hash_equal key (T.hash_value key)
        (T.bucket (T.hash_value key % T.bucket_count)) with
    | none =>
      rw [hash_get_fast_miss T key hw]
      exact hp
    | some r =>
      obtain ⟨passed, p, rest⟩ := r
      rw [hash_get_fast_hit T key hw]
      have hchain := (chain_walk_some hw).1
      refine nodes_placed_update T _ (T.hash_value key % T.bucket_count)
        (p :: (passed ++ rest)) hp rfl rfl ?_
      intro q hmem
      refine hp _ q ?_
      rw [hchain]
      rcases List.mem_cons.mp hmem with h | h
      · simp [h]
      · rcases List.mem_append.mp h with h | h
        · simp [h]
        · simp [h]
  | remove key =>
    simp only [hash_call.run]
    cases hw : chain_walk T.hash_equal key (T.hash_value key)
        (T.bucket (T.hash_value key % T.bucket_count)) with
    | none =>
      rw [hash_remove_miss T key hw]
      exact hp
    | some r =>
      obtain ⟨passed, p, rest⟩ := r
      rw [hash_remove_hit T key hw]
      have hchain := (chain_walk_some hw).1
      refine nodes_placed_update T _ (T.hash_value key % T.bucket_count)
        (passed ++ rest) hp rfl rfl ?_
      intro q hmem
      refine hp _ q ?_
      rw [hchain]
      rcases List.mem_append.mp hmem with h | h
      · simp [h]
      · simp [h]

theorem run_calls_keeps_placed : ∀ (calls : List (hash_call K)) (T : hash K),
    nodes_placed T → nodes_placed (run_calls calls T)
  | [], _, hp => hp
  | c :: calls, T, hp => by
    have h := run_calls_keeps_placed calls (c.run T) (run_keeps_placed c T hp)
    simpa [run_calls] using h

theorem created_placed {n : Nat} {hash_value : K → Nat} {hash_equal : K → K → Bool}
    {T : hash K} (hc : hash_create_bucket_count n hash_value hash_equal = some T) :
    nodes_placed T := by
  obtain ⟨_, rfl⟩ := hash_create_bucket_count_some hc
  intro i p hmem
  exfalso
  have hmem2 := mem_all_nodes_of_mem_bucket _ i p hmem
  have hnil : (List.replicate n ([] : List (hash_node K))).flatten = [] := by
    simp [List.flatten_eq_nil_iff]
  simp only [all_nodes, hnil] at hmem2
  cases hmem2

theorem bucket_eq_getElem (T : hash K) (i : Nat) (h : i < T.buckets.length) :
    T.bucket i = T.buckets[i] := by
  simp [hash.bucket, List.getD, List.getElem?_eq_getElem h]

/-- Claim C18 (no duplicate keys): when `hash_equal` is symmetric and keys equal under it
have equal `hash_value`, then in every table reached from `hash_create_bucket_count` by a
sequence of calls no two distinct nodes have keys equal under `hash_equal`, the cached hash
of every node is `hash_value` of its key, and every node stands in bucket
(cached hash mod `bucket_count`). -/
theorem no_duplicate_keys (n : Nat) (hash_value : K → Nat) (hash_equal : K → K → Bool)
    (T0 : hash K) (calls : List (hash_call K))
    (hcreate : hash_create_bucket_count n hash_value hash_equal = some T0)
    (hsymm : ∀ a b, hash_equal a b = true → hash_equal b a = true)
    (hcons : ∀ a b, hash_equal a b = true → hash_value a = hash_value b) :
    (all_nodes (run_calls calls T0)).Pairwise (fun a b => hash_equal a.key b.key = false) ∧
      (∀ p ∈ all_nodes (run_calls calls T0), p.hv = hash_value p.key) ∧
      (∀ i, ∀ p ∈ (run_calls calls T0).bucket i,
        p.hv % (run_calls calls T0).bucket_count = i) := by
  obtain ⟨heq0, hhv0, hd0⟩ := created_distinct hcreate
  obtain ⟨heq, hhv, hd⟩ := run_calls_keeps_distinct calls T0 (by rw [heq0]; exact hsymm) hd0
  have hp := run_calls_keeps_placed calls T0 (created_placed hcreate)
  rw [heq0] at heq
  rw [hhv0] at hhv
  generalize run_calls calls T0 = T at *
  have hhash : ∀ i, ∀ p ∈ T.bucket i, p.hv = hash_value p.key := by
    intro i p hmem
    rw [← hhv]
    exact (hp i p hmem).1
  have hno : ∀ a b : hash_node K, a.hv = hash_value a.key → b.hv = hash_value b.key →
      hash_equal a.key b.key = true → a.hv = b.hv := by
    intro a b ha hb hab
    rw [ha, hb]
    exact hcons _ _ hab
  refine ⟨?_, ?_, fun i p hmem => (hp i p hmem).2⟩
  · rw [all_nodes, List.pairwise_flatten]
    constructor
    · intro c hc
      obtain ⟨i, hi, rfl⟩ := List.getElem_of_mem hc
      have hpw := hd _ hc
      rw [heq] at hpw
      refine List.Pairwise.imp_of_mem ?_ hpw
      intro a b ha hb hnc
      by_contra hcon
      simp only [Bool.not_eq_false] at hcon
      rw [← bucket_eq_getElem T i hi] at ha hb
      exact hnc ⟨hno a b (hhash i a ha) (hhash i b hb) hcon, hcon⟩
    · rw [List.pairwise_iff_getElem]
      intro i j hi hj hij a ha b hb
      by_contra hcon
      simp only [Bool.not_eq_false] at hcon
      rw [← bucket_eq_getElem T i hi] at ha
      rw [← bucket_eq_getElem T j hj] at hb
      have h1 := hno a b (hhash i a ha) (hhash j b hb) hcon
      have h2 := (hp i a ha).2
      have h3 := (hp j b hb).2
      rw [h1] at h2
      omega
  · intro p hmem
    simp only [all_nodes, List.mem_flatten] at hmem
    obtain ⟨c, hc, hpc⟩ := hmem
    obtain ⟨i, hi, rfl⟩ := List.getElem_of_mem hc
    rw [← bucket_eq_getElem T i hi] at hpc
    exact hhash i p hpc

/-- Witness of C18: a run with puts into one bucket, a replacing put, a promotion, a remove
and a clear. -/
theorem no_duplicate_keys_witness :
    (all_nodes (run_calls [hash_call.put 1 10, hash_call.put 3 30, hash_call.put 1 11,
        hash_call.get_fast 1, hash_call.put 2 20, hash_call.remove 3, hash_call.clear]
        sample_empty)).Pairwise (fun a b => (a.key == b.key) = false) ∧
      (∀ p ∈ all_nodes (run_calls [hash_call.put 1 10, hash_call.put 3 30, hash_call.put 1 11,
        hash_call.get_fast 1, hash_call.put 2 20, hash_call.remove 3, hash_call.clear]
        sample_empty), p.hv = p.key) ∧
      (∀ i, ∀ p ∈ (run_calls [hash_call.put 1 10, hash_call.put 3 30, hash_call.put 1 11,
        hash_call.get_fast 1, hash_call.put 2 20, hash_call.remove 3, hash_call.clear]
        sample_empty).bucket i,
        p.hv % (run_calls [hash_call.put 1 10, hash_call.put 3 30, hash_call.put 1 11,
          hash_call.get_fast 1, hash_call.put 2 20, hash_call.remove 3, hash_call.clear]
          sample_empty).bucket_count = i) :=
  no_duplicate_keys 2 (fun k => k) (fun a b => a == b) sample_empty
    [hash_call.put 1 10, hash_call.put 3 30, hash_call.put 1 11, hash_call.get_fast 1,
      hash_call.put 2 20, hash_call.remove 3, hash_call.clear] rfl
    (fun a b h => by simp at h ⊢; omega) (fun a b h => by simpa using h)

theorem hash_put_count (T : hash K) (key : K) (value : void_ptr) :
    (hash_put T key value).1.element_count =
      if (hash_lookup T key).isSome then T.element_count else T.element_count + 1 := by
  cases hw : chain_walk T.hash_equal key (T.hash_value key)
      (T.bucket (T.hash_value key % T.bucket_count)) with
  | none =>
    rw [hash_put_miss T key value hw]
    simp [hash_lookup, hw]
  | some r =>
    obtain ⟨passed, p, rest⟩ := r
    rw [hash_put_hit T key value hw]
    simp [hash_lookup, hw, hash.set_bucket]

theorem hash_remove_result (T : hash K) (key : K) :
    (hash_remove T key).2 = hash_get T key ∧
      (hash_remove T key).1.element_count =
        if (hash_lookup T key).isSome then size_dec T.element_count else T.element_count := by
  cases hw : chain_walk T.hash_equal key (T.hash_value key)
      (T.bucket (T.hash_value key % T.bucket_count)) with
  | none =>
    rw [hash_remove_miss T key hw, hash_get_miss T key hw]
    simp [hash_lookup, hw]
  | some r =>
    obtain ⟨passed, p, rest⟩ := r
    rw [hash_remove_hit T key hw, hash_get_hit T key hw]
    simp [hash_lookup, hw]

theorem hash_lookup_put_self (T : hash K) (hpos : 0 < T.bucket_count) (key : K)
    (value : void_ptr) (hrefl : T.hash_equal key key = true) :
    ∃ p, hash_lookup (hash_put T key value).1 key = some p ∧ p.value = value ∧
      node_matches T.hash_equal key (T.hash_value key) p = true := by
  obtain ⟨p, next, hb, hm, hv⟩ := hash_put_head T hpos key value hrefl
  obtain ⟨h1, h2, h3⟩ := hash_put_fields T key value
  refine ⟨p, ?_, hv, hm⟩
  rw [hash_lookup_eq_find, h1, h2, h3, hb, List.find?_cons_of_pos _ hm]

theorem mem_all_nodes_of_lookup (T : hash K) (key : K) (p : hash_node K)
    (h : hash_lookup T key = some p) : p ∈ all_nodes T := by
  rw [hash_lookup_eq_find] at h
  exact mem_all_nodes_of_mem_bucket T _ p (List.mem_of_find?_eq_some h)

theorem all_nodes_length (T : hash K) : (all_nodes T).length = node_count T := by
  simp [all_nodes, node_count, List.length_flatten]

theorem hash_remove_fields (T : hash K) (key : K) :
    (hash_remove T key).1.hash_value = T.hash_value ∧
    (hash_remove T key).1.hash_equal = T.hash_equal ∧
    (hash_remove T key).1.bucket_count = T.bucket_count := by
  cases hw : chain_walk T.hash_equal key (T.hash_value key)
      (T.bucket (T.hash_value key % T.bucket_count)) with
  | none =>
    rw [hash_remove_miss T key hw]
    exact ⟨rfl, rfl, rfl⟩
  | some r =>
    obtain ⟨passed, p, rest⟩ := r
    rw [hash_remove_hit T key hw]
    exact ⟨rfl, rfl, bucket_count_set_bucket T _ _⟩

theorem list_eq_singleton {α : Type} (l : List α) (x : α) (hlen : l.length = 1)
    (hx : x ∈ l) : l = [x] := by
  match l, hlen, hx with
  | [y], _, hx =>
    simp only [List.mem_singleton] at hx
    rw [hx]

theorem string_beq_facts (T : hash String) (h : T.hash_equal = fun a b => a == b) :
    (∀ a b, T.hash_equal a b = true → T.hash_equal b a = true) ∧
    (∀ a b c, T.hash_equal a b = true → T.hash_equal b c = true →
      T.hash_equal a c = true) ∧
    (∀ a, T.hash_equal a a = true) ∧
    T.hash_equal "a" "b" = false ∧ T.hash_equal "b" "a" = false ∧
    (∀ (key : String) (hv : Nat) (p : hash_node String),
      node_matches T.hash_equal key hv p = true → p.key = key) := by
  rw [h]
  refine ⟨?_, ?_, ?_, by decide, by decide, ?_⟩
  · intro a b hab
    simp only [beq_iff_eq] at hab ⊢
    exact hab.symm
  · intro a b c hab hbc
    simp only [beq_iff_eq] at hab hbc ⊢
    exact hab.trans hbc
  · intro a
    simp
  · intro key hv p hm
    simp only [node_matches, Bool.and_eq_true, decide_eq_true_eq, beq_iff_eq] at hm
    exact hm.2

/-- The scenario of C13 on any empty table with string equality. -/
theorem scenario_on_empty (T0 : hash String) (heq0 : T0.hash_equal = fun a b => a == b)
    (hpos0 : 0 < T0.bucket_count) (hsize : T0.bucket_count < SIZE_MOD)
    (hcnt0 : T0.element_count = 0) (hnodes0 : node_count T0 = 0)
    (fuel : Nat) (hfuel : 1 < fuel) :
    hash_count (hash_put (hash_put (hash_put T0 "a" 1).1 "b" 2).1 "a" 3).1 = 2 ∧
      hash_get (hash_put (hash_put (hash_put T0 "a" 1).1 "b" 2).1 "a" 3).1 "a" = 3 ∧
      hash_get (hash_put (hash_put (hash_put T0 "a" 1).1 "b" 2).1 "a" 3).1 "b" = 2 ∧
      (hash_remove (hash_put (hash_put (hash_put T0 "a" 1).1 "b" 2).1 "a" 3).1 "b").2 = 2 ∧
      hash_count
        (hash_remove (hash_put (hash_put (hash_put T0 "a" 1).1 "b" 2).1 "a" 3).1 "b").1 = 1 ∧
      hash_iter_traverse fuel (hash_make_iter
        (hash_remove (hash_put (hash_put (hash_put T0 "a" 1).1 "b" 2).1 "a" 3).1 "b").1)
        = some [{ key := "a", value := 3 }] := by
  -- the empty table answers no lookup
  have hnone0 : ∀ k, hash_lookup T0 k = none := by
    intro k
    cases h : hash_lookup T0 k with
    | none => rfl
    | some p =>
      have hmem := mem_all_nodes_of_lookup T0 k p h
      have hlen := all_nodes_length T0
      rw [hnodes0] at hlen
      rw [List.length_eq_zero.mp hlen] at hmem
      cases hmem
  -- table 1: after put("a",1)
  obtain ⟨hv1, he1, hb1⟩ := hash_put_fields T0 "a" 1
  obtain ⟨hsy0, htr0, hrf0, hab0, hba0, _⟩ := string_beq_facts T0 heq0
  have hinv1 := run_keeps_count (hash_call.put "a" 1) T0 hpos0 (by rw [hcnt0, hnodes0])
  have hc1 : (hash_put T0 "a" 1).1.element_count = 1 := by
    rw [hash_put_count, hnone0, hcnt0]
    rfl
  obtain ⟨p1, hl1, _, _⟩ := hash_lookup_put_self T0 hpos0 "a" 1 (hrf0 "a")
  have hn1b : hash_lookup (hash_put T0 "a" 1).1 "b" = none := by
    rw [hash_lookup_put_other T0 "a" "b" 1 hsy0 htr0 hab0, hnone0]
  simp only [hash_call.run] at hinv1
  generalize (hash_put T0 "a" 1).1 = T1 at *
  have heq1 : T1.hash_equal = fun a b => a == b := by rw [he1, heq0]
  have hpos1 : 0 < T1.bucket_count := by omega
  -- table 2: after put("b",2)
  obtain ⟨hv2, he2, hb2⟩ := hash_put_fields T1 "b" 2
  obtain ⟨hsy1, htr1, hrf1, hab1, hba1, _⟩ := string_beq_facts T1 heq1
  have hinv2 := run_keeps_count (hash_call.put "b" 2) T1 hpos1 hinv1.2
  have hc2 : (hash_put T1 "b" 2).1.element_count = 2 := by
    rw [hash_put_count, hn1b, hc1]
    rfl
  obtain ⟨p2, hl2, hp2v, _⟩ := hash_lookup_put_self T1 hpos1 "b" 2 (hrf1 "b")
  have hl2a : hash_lookup (hash_put T1 "b" 2).1 "a" = some p1 := by
    rw [hash_lookup_put_other T1 "b" "a" 2 hsy1 htr1 hba1, hl1]
  simp only [hash_call.run] at hinv2
  generalize (hash_put T1 "b" 2).1 = T2 at *
  have heq2 : T2.hash_equal = fun a b => a == b := by rw [he2, heq1]
  have hpos2 : 0 < T2.bucket_count := by omega
  -- table 3: after put("a",3)
  obtain ⟨hv3, he3, hb3⟩ := hash_put_fields T2 "a" 3
  obtain ⟨hsy2, htr2, hrf2, hab2, hba2, hkey2⟩ := string_beq_facts T2 heq2
  have hinv3 := run_keeps_count (hash_call.put "a" 3) T2 hpos2 hinv2.2
  have hc3 : (hash_put T2 "a" 3).1.element_count = 2 := by
    rw [hash_put_count, hl2a, hc2]
    rfl
  have hg3a : hash_get (hash_put T2 "a" 3).1 "a" = 3 :=
    hash_get_put_self T2 hpos2 "a" 3 (hrf2 "a")
  obtain ⟨p3, hl3, hp3v, hp3m⟩ := hash_lookup_put_self T2 hpos2 "a" 3 (hrf2 "a")
  have hp3k : p3.key = "a" := hkey2 "a" _ p3 hp3m
  have hl3b : hash_lookup (hash_put T2 "a" 3).1 "b" = some p2 := by
    rw [hash_lookup_put_other T2 "a" "b" 3 hsy2 htr2 hab2, hl2]
  have hg3b : hash_get (hash_put T2 "a" 3).1 "b" = 2 := by
    rw [hash_get_eq_lookup, hl3b]
    exact hp2v
  simp only [hash_call.run] at hinv3
  generalize (hash_put T2 "a" 3).1 = T3 at *
  have heq3 : T3.hash_equal = fun a b => a == b := by rw [he3, heq2]
  have hpos3 : 0 < T3.bucket_count := by omega
  -- table 4: after remove("b")
  obtain ⟨hv4, he4, hb4⟩ := hash_remove_fields T3 "b"
  obtain ⟨hsy3, htr3, _, _, hba3, _⟩ := string_beq_facts T3 heq3
  obtain ⟨hr4, hc4⟩ := hash_remove_result T3 "b"
  rw [hl3b, hc3] at hc4
  have hinv4 := run_keeps_count (hash_call.remove "b") T3 hpos3 hinv3.2
  have hl4 : hash_lookup (hash_remove T3 "b").1 "a" = some p3 := by
    rw [hash_lookup_remove_other T3 "b" "a" hsy3 htr3 hba3, hl3]
  have hmem4 := mem_all_nodes_of_lookup _ "a" p3 hl4
  simp only [hash_call.run] at hinv4
  have hc4b : (hash_remove T3 "b").1.element_count = 1 := hc4
  have hnc4 : node_count (hash_remove T3 "b").1 = 1 := by
    rw [← hinv4.2, hc4b]
  have hall : all_nodes (hash_remove T3 "b").1 = [p3] :=
    list_eq_singleton _ p3 (by rw [all_nodes_length, hnc4]) hmem4
  refine ⟨hc3, hg3a, hg3b, by rw [hr4, hg3b], hc4b, ?_⟩
  rw [traverse_fresh (hash_remove T3 "b").1 (by omega) fuel (by omega), hall]
  simp [hash_node.pair, hp3k, hp3v]

/-- Claim C13 (concrete scenario): for every `hash_value`, with string equality as
`hash_equal` and a table created with 4 buckets, after put("a",1), put("b",2), put("a",3)
the count is 2, get("a") is 3 and get("b") is 2; then remove("b") returns 2, the count is 1,
and a full traversal from a fresh iterator yields the single pair ("a",3). -/
theorem scenario_four_buckets (hash_value : String → Nat) (fuel : Nat) (hfuel : 1 < fuel) :
    ∃ T0, hash_create_bucket_count 4 hash_value (fun a b => a == b) = some T0 ∧
      hash_count (run_calls
        [hash_call.put "a" 1, hash_call.put "b" 2, hash_call.put "a" 3] T0) = 2 ∧
      hash_get (run_calls
        [hash_call.put "a" 1, hash_call.put "b" 2, hash_call.put "a" 3] T0) "a" = 3 ∧
      hash_get (run_calls
        [hash_call.put "a" 1, hash_call.put "b" 2, hash_call.put "a" 3] T0) "b" = 2 ∧
      (hash_remove (run_calls
        [hash_call.put "a" 1, hash_call.put "b" 2, hash_call.put "a" 3] T0) "b").2 = 2 ∧
      hash_count (hash_remove (run_calls
        [hash_call.put "a" 1, hash_call.put "b" 2, hash_call.put "a" 3] T0) "b").1 = 1 ∧
      hash_iter_traverse fuel (hash_make_iter (hash_remove (run_calls
        [hash_call.put "a" 1, hash_call.put "b" 2, hash_call.put "a" 3] T0) "b").1)
        = some [{ key := "a", value := 3 }] := by
  have hcreate : hash_create_bucket_count 4 hash_value (fun a b : String => a == b) =
      some { buckets := List.replicate 4 [], element_count := 0,
             hash_value := hash_value, hash_equal := fun a b => a == b } := rfl
  obtain ⟨hpos0, hcount0⟩ := created_count hcreate
  refine ⟨_, hcreate, ?_⟩
  exact scenario_on_empty _ rfl hpos0 (by simp [hash.bucket_count, SIZE_MOD]) rfl
    hcount0.symm fuel hfuel

/-- Witness of C13: the hash of a string is its length, so "a" and "b" share bucket 1. -/
theorem scenario_four_buckets_witness :
    ∃ T0, hash_create_bucket_count 4 (fun s : String => s.length) (fun a b => a == b)
        = some T0 ∧
      hash_count (run_calls
        [hash_call.put "a" 1, hash_call.put "b" 2, hash_call.put "a" 3] T0) = 2 ∧
      hash_get (run_calls
        [hash_call.put "a" 1, hash_call.put "b" 2, hash_call.put "a" 3] T0) "a" = 3 ∧
      hash_get (run_calls
        [hash_call.put "a" 1, hash_call.put "b" 2, hash_call.put "a" 3] T0) "b" = 2 ∧
      (hash_remove (run_calls
        [hash_call.put "a" 1, hash_call.put "b" 2, hash_call.put "a" 3] T0) "b").2 = 2 ∧
      hash_count (hash_remove (run_calls
        [hash_call.put "a" 1, hash_call.put "b" 2, hash_call.put "a" 3] T0) "b").1 = 1 ∧
      hash_iter_traverse 2 (hash_make_iter (hash_remove (run_calls
        [hash_call.put "a" 1, hash_call.put "b" 2, hash_call.put "a" 3] T0) "b").1)
        = some [{ key := "a", value := 3 }] :=
  scenario_four_buckets (fun s => s.length) 2 (by decide)

end HashTable
